import Mathlib

/-!
A shallow embedding of the typing-session engine of the `typre` repository
(`src/test.rs`, `src/ui.rs`, `src/words.rs`, `src/rand.rs`), together with
theorems settling the specification claims about it.

Strings are modelled as `List Char` (Rust `String` / `&str` compared by
content), machine integers as `Nat` with explicit `% 2^w` where the source
uses wrapping arithmetic, and fallible or possibly-diverging operations as
`Option`-returning functions (a fuel parameter models the rejection loop of
the Lemire bounded generator).  Terminal I/O, wall-clock reads and thread
scheduling are outside the embedding: the session loop is modelled as a pure
transition system over the list of decoded key events it consumes, and the
two wall-clock values read by the timer (`SystemTime::now` at start,
`Instant::elapsed` at stop) are passed in as parameters.
-/

namespace Test

/-- `Diff` from `src/test.rs`: the per-character verdict. -/
inductive Diff where
  | correct (c : Char)
  | error (typed target : Char)
  | extra (c : Char)
  deriving DecidableEq, Repr

/-- `diff_at` from `src/test.rs` (lines 217-226).  `input.chars().nth(i)` is
`input[i]?`; the `unreachable!()` arm is modelled as `none`. -/
def diffAt (input target : List Char) (i : Nat) : Option Diff :=
  match input[i]?, target[i]? with
  | some c, some d => if c = d then some (.correct c) else some (.error c d)
  | some c, none => some (.extra c)
  | _, _ => none

/-- The decoded key events the session loop distinguishes
(`termion::event::Key` as matched in `Test::run`). -/
inductive Key where
  | ctrl (c : Char)
  | esc
  | char (c : Char)
  | backspace
  | other
  deriving DecidableEq, Repr

/-- `StepKind` from `src/test.rs`.  The `Input` payload is the (possibly
unreachable-branch) result of `diff_at`, hence `Option Diff`; the monotonic
`Instant` timestamp attached by `Step::input/start/complete` is a wall-clock
read and is not part of the pure embedding. -/
inductive StepKind where
  | inputStep (d : Option Diff)
  | start (word : Nat)
  | complete (word : Nat)
  deriving DecidableEq, Repr

/-- The mutable state of `Test` (`src/test.rs` lines 24-34) that the session
loop touches: the pending input buffer, current word index, intra-word
cursor, and whether the timer has been started.  `words` is the fixed target
word list. -/
structure TState where
  words : List (List Char)
  input : List Char
  word : Nat
  pos : Nat
  timerRunning : Bool
  deriving DecidableEq, Repr

/-- `Test::new`: empty input, word 0, cursor 0, timer not yet started. -/
def initState (ws : List (List Char)) : TState :=
  { words := ws, input := [], word := 0, pos := 0, timerRunning := false }

/-- Is this key one of the quit keystrokes
(`Key::Ctrl('c' | 'd' | 'q' | 'z') | Key::Esc`)? -/
def isQuitKey : Key → Bool
  | .ctrl c => c = 'c' ∨ c = 'd' ∨ c = 'q' ∨ c = 'z'
  | .esc => true
  | _ => false

/-- Is this key a printable-character keystroke (`Key::Char(_)`)? -/
def isCharKey : Key → Bool
  | .char _ => true
  | _ => false

/-- The `Key::Char(c)` arm of the session loop (`src/test.rs` lines 77-107):
start the timer on the first character, complete the word on a space typed
after a fully-correct buffer, otherwise append and classify the character.
Returns the new state, the `Step`s pushed (in order), and `some quit` when
the loop breaks (`some false` = all words completed). -/
def procChar (s : TState) (c : Char) : TState × List StepKind × Option Bool :=
  let pre : List StepKind := if s.timerRunning then [] else [.start 0]
  let s := { s with timerRunning := true }
  if c = ' ' ∧ s.input = s.words.getD s.word [] then
    let w := s.word
    let s := { s with input := [], pos := 0, word := w + 1 }
    if s.word = s.words.length then
      (s, pre ++ [.complete w], some false)
    else
      (s, pre ++ [.complete w, .start s.word], none)
  else
    let input' := s.input ++ [c]
    let d := diffAt input' (s.words.getD s.word []) s.pos
    ({ s with input := input', pos := s.pos + 1 }, pre ++ [.inputStep d], none)

/-- One iteration of the `match key.unwrap()` in `Test::run`:  quit keys
break with `true`; characters go through `procChar`; backspace with a
positive cursor pops the last input character (`String::pop` = `dropLast`)
and decrements the cursor; everything else is ignored. -/
def procKey (s : TState) (k : Key) : TState × List StepKind × Option Bool :=
  if isQuitKey k then (s, [], some true)
  else
    match k with
    | .char c => procChar s c
    | .backspace =>
      if s.pos > 0 then
        ({ s with input := s.input.dropLast, pos := s.pos - 1 }, [], none)
      else (s, [], none)
    | _ => (s, [], none)

/-- Outcome of running the session loop on a finite list of key events:
either the loop broke (`ended quit finalState steps unconsumedKeys`) or the
key list was exhausted with the loop still waiting (`pending`). -/
inductive RunOut where
  | ended (quit : Bool) (final : TState) (steps : List StepKind) (rest : List Key)
  | pending (final : TState) (steps : List StepKind)
  deriving DecidableEq, Repr

/-- The session loop of `Test::run` (lines 67-115) over a list of decoded
keys, accumulating the pushed `Step`s.  `recv_timeout` expiries and render
calls do not change session state and are not modelled. -/
def runKeys (s : TState) (steps : List StepKind) : List Key → RunOut
  | [] => .pending s steps
  | k :: ks =>
    match procKey s k with
    | (s', st, none) => runKeys s' (steps ++ st) ks
    | (s', st, some q) => .ended q s' (steps ++ st) ks

/-- `TestRawResult` from `src/test.rs`.  `start` is the wall-clock timestamp
captured by `Timer::start` and `duration` the elapsed time returned by
`Timer::stop`; both are environment reads, passed into `runResult` as
parameters. -/
structure TestRawResult where
  word_count : Nat
  punct : Bool
  numbers : Bool
  steps : List StepKind
  start : Nat
  duration : Nat
  quit : Bool
  deriving DecidableEq, Repr

/-- The value `Test::run` returns once the loop has broken (lines 118-126):
`self.timer.stop()` is `none` exactly when the timer never started, and
otherwise the raw result is assembled from the session state.  The outer
`Option` is `none` when the key list was exhausted without the loop
breaking (the real loop would still be blocked). -/
def runResult (ws : List (List Char)) (punct numbers : Bool)
    (wallStart elapsed : Nat) (ks : List Key) : Option (Option TestRawResult) :=
  match runKeys (initState ws) [] ks with
  | .pending _ _ => none
  | .ended q f steps _ =>
    some (if f.timerRunning then
      some { word_count := ws.length, punct := punct, numbers := numbers,
             steps := steps, start := wallStart, duration := elapsed, quit := q }
    else none)

/-- Final state of a `RunOut`. -/
def RunOut.state : RunOut → TState
  | .ended _ f _ _ => f
  | .pending f _ => f

/-- Step log of a `RunOut`. -/
def RunOut.steps : RunOut → List StepKind
  | .ended _ _ st _ => st
  | .pending _ st => st

end Test

namespace Ui

/-- `Style` from `src/ui.rs`. -/
inductive Style where
  | correct
  | error
  | extra
  | empty
  deriving DecidableEq, Repr

/-- `Word` from `src/ui.rs` (lines 189-194): the fixed target characters,
the styled character buffer, and the write cursor. -/
structure Word where
  initial : List Char
  chars : List (Char × Style)
  pos : Nat
  deriving DecidableEq, Repr

/-- `Word::from(&str)`: every target character starts as `Empty`. -/
def Word.ofChars (s : List Char) : Word :=
  { initial := s, chars := s.map (fun c => (c, Style.empty)), pos := 0 }

/-- `Word::push` (lines 205-211): overwrite the slot at the cursor if it
exists, otherwise append; advance the cursor. -/
def Word.push (w : Word) (c : Char) (st : Style) : Word :=
  if w.pos < w.chars.length then
    { w with chars := w.chars.set w.pos (c, st), pos := w.pos + 1 }
  else
    { w with chars := w.chars ++ [(c, st)], pos := w.pos + 1 }

/-- `Word::pop` (lines 213-230): with a positive cursor whose previous slot
exists, restore that slot to the Empty placeholder when it lies within the
original target, or remove it outright (`Vec::pop`) when it lies beyond;
report whether anything changed. -/
def Word.pop (w : Word) : Word × Bool :=
  if w.pos > 0 then
    if w.pos - 1 < w.chars.length then
      if w.pos - 1 < w.initial.length then
        ({ w with chars := w.chars.set (w.pos - 1) (w.initial.getD (w.pos - 1) default, Style.empty),
                  pos := w.pos - 1 }, true)
      else
        ({ w with chars := w.chars.dropLast, pos := w.pos - 1 }, true)
    else (w, false)
  else (w, false)

/-- `Line` from `src/ui.rs` (lines 251-259); the source field `end` is a
Lean keyword and is called `stop` here. -/
structure Line where
  start : Nat
  stop : Nat
  len : Nat
  deriving DecidableEq, Repr

/-- The loop body of `wrap` (lines 261-284), recursing over the remaining
word display widths.  `i` is the index of the next word, `start` the index
opening the current line and `lineWidth` the accumulated width (each word's
display width plus one separating space).  A word's display width is the
sum of its characters' terminal widths (`Word::width`); `wrap` is uniform
in those widths, so the embedding takes the width list directly. -/
def wrapGo (width : Nat) : List Nat → Nat → Nat → Nat → List Line
  | [], i, start, lineWidth => [{ start := start, stop := i, len := lineWidth }]
  | w :: rest, i, start, lineWidth =>
    if i > start ∧ lineWidth + w > width then
      { start := start, stop := i, len := lineWidth } :: wrapGo width rest (i + 1) i (w + 1)
    else
      wrapGo width rest (i + 1) start (lineWidth + w + 1)

/-- `wrap` from `src/ui.rs`: greedy line wrap of the given word display
widths into lines of at most `width` columns (when possible). -/
def wrap (ws : List Nat) (width : Nat) : List Line :=
  wrapGo width ws 0 0 0

end Ui

namespace Rand

/-- `2^32`, the modulus of `u32` arithmetic. -/
def U32 : Nat := 2 ^ 32

/-- `2^64`, the modulus of `u64` arithmetic. -/
def U64 : Nat := 2 ^ 64

/-- `Rng::gen_u64` (`src/rand.rs` lines 43-48), the Wyrand step: advance the
64-bit state by the fixed increment, square-with-xor in 128-bit arithmetic,
and fold the two halves.  Returns (new state, value). -/
def genU64 (s : Nat) : Nat × Nat :=
  let s' := (s + 0xA0761D6478BD642F) % U64
  let t := s' * (Nat.xor s' 0xE7037ED1A0B428DB)
  (s', Nat.xor (t % U64) ((t / U64) % U64))

/-- `Rng::gen_u32`: the low 32 bits of a `gen_u64` draw (`as u32` cast). -/
def genU32 (s : Nat) : Nat × Nat :=
  let (s', v) := genU64 s
  (s', v % U32)

/-- `mul_high_u32` (lines 113-115): `((a as u64) * (b as u64)) >> 32`. -/
def mulHighU32 (a b : Nat) : Nat := a * b / U32

/-- `mul_high_u64` (lines 119-121): `((a as u128) * (b as u128)) >> 64`. -/
def mulHighU64 (a b : Nat) : Nat := a * b / U64

/-- The `while lo < t` rejection loop of `Rng::gen_mod_u64` (lines 83-88),
with a fuel bound standing in for its probabilistic termination: each
iteration redraws, and the loop exits returning the high half once the low
half reaches the fixed threshold `t`. -/
def genModU64Go (n t : Nat) : Nat → Nat → Option (Nat × Nat)
  | 0, _ => none
  | fuel + 1, s =>
    let (s', r) := genU64 s
    let hi := mulHighU64 r n
    let lo := r * n % U64
    if lo < t then genModU64Go n t fuel s' else some (s', hi)

/-- `Rng::gen_mod_u64` (lines 76-90), Lemire's unbiased reduction into
`0..n`: draw, take the 128-bit high half as candidate, and when the low
half falls under `n` compute the rejection threshold
`t = n.wrapping_neg() % n` and resample while the low half is below it. -/
def genModU64 (fuel s n : Nat) : Option (Nat × Nat) :=
  let (s', r) := genU64 s
  let hi := mulHighU64 r n
  let lo := r * n % U64
  if lo < n then
    let t := (U64 - n % U64) % U64 % n
    if lo < t then genModU64Go n t fuel s' else some (s', hi)
  else some (s', hi)

/-- The `while lo < t` rejection loop of `Rng::gen_mod_u32` (lines 65-69). -/
def genModU32Go (n t : Nat) : Nat → Nat → Option (Nat × Nat)
  | 0, _ => none
  | fuel + 1, s =>
    let (s', r) := genU32 s
    let hi := mulHighU32 r n
    let lo := r * n % U32
    if lo < t then genModU32Go n t fuel s' else some (s', hi)

/-- `Rng::gen_mod_u32` (lines 58-72), Lemire's reduction into `0..n` over
32-bit draws. -/
def genModU32 (fuel s n : Nat) : Option (Nat × Nat) :=
  let (s', r) := genU32 s
  let hi := mulHighU32 r n
  let lo := r * n % U32
  if lo < n then
    let t := (U32 - n % U32) % U32 % n
    if lo < t then genModU32Go n t fuel s' else some (s', hi)
  else some (s', hi)

/-- A `std::ops::Bound` on one side of the requested range, as inspected by
`rng_integer` via `start_bound`/`end_bound`. -/
inductive RBound where
  | unbounded
  | included (x : Nat)
  | excluded (x : Nat)
  deriving DecidableEq, Repr

/-- Outcome of a bounded draw: a value with the new generator state, the
`panic!("empty range: ...")` of `rng_integer`, or rejection-loop fuel
exhaustion (an artifact of the embedding, not of the source). -/
inductive RngOut where
  | ok (state val : Nat)
  | panicked
  | noFuel
  deriving DecidableEq, Repr

/-- Resolution of the start bound in `rng_integer` (lines 151-155) for a
type of width `w`: `Unbounded` is `MIN = 0`, `Excluded(x)` is
`x.checked_add(1)`, whose overflow (`none`) triggers the empty-range panic. -/
def resolveLow (w : Nat) : RBound → Option Nat
  | .unbounded => some 0
  | .included x => some x
  | .excluded x => if x + 1 ≥ 2 ^ w then none else some (x + 1)

/-- Resolution of the end bound in `rng_integer` (lines 157-161):
`Unbounded` is `MAX = 2^w - 1`, `Excluded(x)` is `x.checked_sub(1)`. -/
def resolveHigh (w : Nat) : RBound → Option Nat
  | .unbounded => some (2 ^ w - 1)
  | .included x => some x
  | .excluded x => if x = 0 then none else some (x - 1)

/-- The body of the `rng_integer!` macro (lines 136-175) for an unsigned
type of width `w` with raw generator `gen` and Lemire reducer `genMod`:
resolve the bounds (panicking on an empty range), return the raw draw cast
to the type when the full range is requested, and otherwise reduce into
`len = high.wrapping_sub(low).wrapping_add(1)` values offset by `low`
(all arithmetic wrapping at `2^w`). -/
def rngInteger (w : Nat) (gen : Nat → Nat × Nat)
    (genMod : Nat → Nat → Nat → Option (Nat × Nat))
    (fuel s : Nat) (lo hi : RBound) : RngOut :=
  match resolveLow w lo, resolveHigh w hi with
  | some low, some high =>
    if low > high then .panicked
    else if low = 0 ∧ high = 2 ^ w - 1 then
      let (s', r) := gen s
      .ok s' (r % 2 ^ w)
    else
      let len := ((high - low) % 2 ^ w + 1) % 2 ^ w
      match genMod fuel s len with
      | none => .noFuel
      | some (s', v) => .ok s' ((low + v) % 2 ^ w)
  | _, _ => .panicked

/-- `Rng::u8` (`rng_integer!(u8, u8, gen_u32, gen_mod_u32, ...)`). -/
def rngU8 (fuel s : Nat) (lo hi : RBound) : RngOut :=
  rngInteger 8 genU32 genModU32 fuel s lo hi

/-- `Rng::u64` (`rng_integer!(u64, u64, gen_u64, gen_mod_u64, ...)`). -/
def rngU64 (fuel s : Nat) (lo hi : RBound) : RngOut :=
  rngInteger 64 genU64 genModU64 fuel s lo hi

/-- `Rng::usize` on a 64-bit target
(`rng_integer!(usize, usize, gen_u64, gen_mod_u64, ...)` under
`cfg(target_pointer_width = "64")`). -/
def rngUsize (fuel s : Nat) (lo hi : RBound) : RngOut :=
  rngInteger 64 genU64 genModU64 fuel s lo hi

/-- The `for (i, elem) in iter.enumerate()` loop of `Rng::choose_multiple`
(lines 214-220): for the element at offset `i` past the reservoir, draw
`k = self.usize(..end)` with `end = i + 1 + amount` and overwrite reservoir
slot `k` when it exists (`reservoir.get_mut(k)`).  `none` propagates fuel
exhaustion of the bounded draw (the draw's range is never empty, so it
cannot panic; a panic is also mapped to `none`). -/
def chooseGo {α : Type} (amount fuel : Nat) :
    Nat → List α → Nat → List α → Option (Nat × List α)
  | s, reservoir, _, [] => some (s, reservoir)
  | s, reservoir, i, x :: rest =>
    match rngUsize fuel s .unbounded (.excluded (i + 1 + amount)) with
    | .ok s' k =>
      let reservoir' := if k < reservoir.length then reservoir.set k x else reservoir
      chooseGo amount fuel s' reservoir' (i + 1) rest
    | _ => none

/-- `Rng::choose_multiple` (lines 209-225) on a finite stream: fill the
reservoir with the first `amount` items and, when the stream had at least
that many, run the overwrite loop over the remainder; otherwise return
everything collected. -/
def chooseMultiple {α : Type} (fuel s : Nat) (l : List α) (amount : Nat) :
    Option (Nat × List α) :=
  let reservoir := l.take amount
  if reservoir.length = amount then
    chooseGo amount fuel s reservoir 0 (l.drop amount)
  else some (s, reservoir)

/-- The overwrite fold that `choose_multiple`'s loop performs, with the
drawn indices made explicit: the element at each offset replaces reservoir
slot `k` exactly when the drawn `k` falls inside the reservoir. -/
def applyDraws {α : Type} : List α → List α → List Nat → List α
  | res, [], _ => res
  | res, _ :: _, [] => res
  | res, x :: rest, k :: ks =>
    applyDraws (if k < res.length then res.set k x else res) rest ks

end Rand

namespace Words

/-- Rust `char::is_whitespace` (the Unicode `White_Space` property), used
by `str::trim` in `WordSet::load`. -/
def rustIsWhitespace (c : Char) : Bool :=
  let n := c.toNat
  (0x09 ≤ n ∧ n ≤ 0x0D) ∨ n = 0x20 ∨ n = 0x85 ∨ n = 0xA0 ∨ n = 0x1680 ∨
    (0x2000 ≤ n ∧ n ≤ 0x200A) ∨ n = 0x2028 ∨ n = 0x2029 ∨ n = 0x202F ∨
    n = 0x205F ∨ n = 0x3000

/-- `str::trim`: drop whitespace from both ends. -/
def trim (s : List Char) : List Char :=
  ((s.dropWhile rustIsWhitespace).reverse.dropWhile rustIsWhitespace).reverse

/-- `WordSet::load` (`src/words.rs` lines 15-24) on the decoded lines of the
resource (`BufRead::lines` yields the text between newlines): each line is
trimmed and collected, with no further filtering. -/
def load (lines : List (List Char)) : List (List Char) :=
  lines.map trim

/-- `TERMINAL` from `punctuate`. -/
def TERMINAL : List Char := ['.', '?', '!']

/-- `PAUSE` from `punctuate`. -/
def PAUSE : List Char := [',', ';', ':']

/-- `SEP` from `punctuate`. -/
def SEP : List (List Char) := [['-'], ['/'], ['.', '.', '.']]

/-- `DELIM` from `punctuate`: quote, apostrophe, parens, brackets, braces,
angle brackets (character codes used verbatim). -/
def DELIM : List (Char × Char) :=
  [(Char.ofNat 34, Char.ofNat 34), (Char.ofNat 39, Char.ofNat 39),
   (Char.ofNat 40, Char.ofNat 41), (Char.ofNat 91, Char.ofNat 93),
   (Char.ofNat 123, Char.ofNat 125), (Char.ofNat 60, Char.ofNat 62)]

/-- `u8::to_ascii_uppercase` on one character. -/
def asciiUpper (c : Char) : Char :=
  if 97 ≤ c.toNat ∧ c.toNat ≤ 122 then Char.ofNat (c.toNat - 32) else c

/-- The `word.get_mut(..1)` / `make_ascii_uppercase` step of `punctuate`:
the one-byte slice exists exactly when the word is non-empty and its first
character is a single UTF-8 byte (code point below 128), and then that byte
is ASCII-uppercased; otherwise the word is unchanged. -/
def upperFirstByte : List Char → List Char
  | [] => []
  | c :: rest => if c.toNat < 128 then asciiUpper c :: rest else c :: rest

/-- The value of the `f64` literal `0.3` (nearest double):
`5404319552844595 * 2^-54`. -/
def c03 : ℚ := 5404319552844595 / 2 ^ 54

/-- The value of the `f64` literal `0.2` (nearest double):
`7205759403792794 * 2^-55`. -/
def c02 : ℚ := 7205759403792794 / 2 ^ 55

/-- The value of the `f64` literal `0.1` (nearest double):
`7205759403792794 * 2^-56`. -/
def c01 : ℚ := 7205759403792794 / 2 ^ 56

/-- The value of the `f64` literal `0.05` (nearest double):
`7205759403792794 * 2^-57`. -/
def c005 : ℚ := 7205759403792794 / 2 ^ 57

/-- The exact value of `rand::f64()` (`src/rand.rs` lines 228-232) given the
raw 64-bit draw `u`: the bit pattern `0x3FF0000000000000 + (u >> 12)`
denotes `1 + (u >> 12) * 2^-52`, and subtracting `1.0` is exact, so the
draw is the dyadic rational `(u >> 12) / 2^52`. -/
def f64FromU64 (u : Nat) : ℚ :=
  ((u / 2 ^ 12 : Nat) : ℚ) / 2 ^ 52

/-- The per-word body of `punctuate` (`src/words.rs` lines 80-103).
`lastTerminal` is the `last_terminal` flag on entry; `r` is the drawn
float (every value `rand::f64()` can produce is `k / 2^52` with
`k < 2^52`); `idx` is the bounded index draw consumed by whichever branch
runs (at most one per word).  Returns the rewritten word and the flag for
the next word.  All `f64` comparisons are exact rational comparisons
against the double literals. -/
def punctuateStep (lastTerminal : Bool) (word : List Char) (r : ℚ) (idx : Nat) :
    List Char × Bool :=
  let word := if lastTerminal then upperFirstByte word else word
  if r < c03 then
    if r > c02 then (word ++ [TERMINAL.getD idx default], true)
    else if r > c01 then (word ++ [PAUSE.getD idx default], false)
    else if r > c005 then
      let p := DELIM.getD idx default
      (p.1 :: (word ++ [p.2]), false)
    else (SEP.getD idx default, false)
  else (word, false)

/-- `punctuate` over the whole list, threading the `last_terminal` flag;
`draws` pairs each word with its float draw and (lazily consumed) index
draw. -/
def punctuate : Bool → List (List Char) → List (ℚ × Nat) → List (List Char)
  | _, [], _ => []
  | _, ws, [] => ws
  | flag, w :: ws, (r, idx) :: draws =>
    let (w', flag') := punctuateStep flag w r idx
    w' :: punctuate flag' ws draws

end Words

instance : Inhabited Ui.Line := ⟨⟨0, 0, 0⟩⟩

/-! ## Claim C2: positional diff -/

/-- C2: for every input, target and position `i` strictly inside the input,
`diff_at` yields `Correct` on an in-target match, `Error` on an in-target
mismatch, and `Extra` at or beyond the target's length; and on target
`"cat"` with typed `"cbt"` the three positions classify as
`Correct('c')`, `Error('b','a')`, `Correct('t')`. -/
theorem diffAt_spec (input target : List Char) (i : Nat) (hi : i < input.length) :
    (i < target.length → input.getD i default = target.getD i default →
      Test.diffAt input target i = some (.correct (input.getD i default))) ∧
    (i < target.length → input.getD i default ≠ target.getD i default →
      Test.diffAt input target i =
        some (.error (input.getD i default) (target.getD i default))) ∧
    (target.length ≤ i →
      Test.diffAt input target i = some (.extra (input.getD i default))) ∧
    (Test.diffAt ['c', 'b', 't'] ['c', 'a', 't'] 0 = some (.correct 'c') ∧
      Test.diffAt ['c', 'b', 't'] ['c', 'a', 't'] 1 = some (.error 'b' 'a') ∧
      Test.diffAt ['c', 'b', 't'] ['c', 'a', 't'] 2 = some (.correct 't')) := by
  refine ⟨?_, ?_, ?_, by decide⟩
  · intro ht heq
    simp [Test.diffAt, List.getElem?_eq_getElem, hi, ht, List.getD_eq_getElem] at heq ⊢
    simp [heq]
  · intro ht hne
    simp [Test.diffAt, List.getElem?_eq_getElem, hi, ht, List.getD_eq_getElem] at hne ⊢
    simp [hne]
  · intro ht
    have : target.length ≤ i := ht
    simp [Test.diffAt, List.getElem?_eq_getElem, hi, List.getElem?_eq_none this,
      List.getD_eq_getElem]

/-- Witness for `diffAt_spec` at input `"cbt"`, target `"cat"`, `i = 1`. -/
theorem diffAt_spec_witness :
    (1 < 3 → (['c', 'b', 't'] : List Char).getD 1 default =
        (['c', 'a', 't'] : List Char).getD 1 default →
      Test.diffAt ['c', 'b', 't'] ['c', 'a', 't'] 1 =
        some (.correct ((['c', 'b', 't'] : List Char).getD 1 default))) ∧
    (1 < 3 → (['c', 'b', 't'] : List Char).getD 1 default ≠
        (['c', 'a', 't'] : List Char).getD 1 default →
      Test.diffAt ['c', 'b', 't'] ['c', 'a', 't'] 1 =
        some (.error ((['c', 'b', 't'] : List Char).getD 1 default)
          ((['c', 'a', 't'] : List Char).getD 1 default))) ∧
    (3 ≤ 1 → Test.diffAt ['c', 'b', 't'] ['c', 'a', 't'] 1 =
      some (.extra ((['c', 'b', 't'] : List Char).getD 1 default))) ∧
    (Test.diffAt ['c', 'b', 't'] ['c', 'a', 't'] 0 = some (.correct 'c') ∧
      Test.diffAt ['c', 'b', 't'] ['c', 'a', 't'] 1 = some (.error 'b' 'a') ∧
      Test.diffAt ['c', 'b', 't'] ['c', 'a', 't'] 2 = some (.correct 't')) :=
  diffAt_spec ['c', 'b', 't'] ['c', 'a', 't'] 1 (by decide)

/-! ## Claim C3: backspace behaviour -/

/-- C3: backspace with the cursor at 0 is a no-op (no step, no state
change); with a positive cursor it removes exactly the most recent input
character and decrements the cursor.  On the render side, `Word::pop`
restores a reverted position inside the original target to the Empty
placeholder holding the original target character, and removes an `Extra`
position (at or beyond the target length) outright. -/
theorem backspace_spec :
    (∀ s : Test.TState, s.pos = 0 → Test.procKey s .backspace = (s, [], none)) ∧
    (∀ s : Test.TState, 0 < s.pos →
      Test.procKey s .backspace =
        ({ s with input := s.input.dropLast, pos := s.pos - 1 }, [], none)) ∧
    (∀ w : Ui.Word, w.pos = 0 → w.pop = (w, false)) ∧
    (∀ w : Ui.Word, 0 < w.pos → w.pos - 1 < w.chars.length →
      (w.pos - 1 < w.initial.length →
        w.pop = ({ w with
          chars := w.chars.set (w.pos - 1) (w.initial.getD (w.pos - 1) default, .empty),
          pos := w.pos - 1 }, true)) ∧
      (w.initial.length ≤ w.pos - 1 →
        w.pop = ({ w with chars := w.chars.dropLast, pos := w.pos - 1 }, true))) := by
  refine ⟨?_, ?_, ?_, ?_⟩
  · intro s h
    simp [Test.procKey, Test.isQuitKey, h]
  · intro s h
    simp [Test.procKey, Test.isQuitKey, Nat.pos_iff_ne_zero.mp h]
  · intro w h
    simp [Ui.Word.pop, h]
  · intro w h hlt
    refine ⟨fun hin => ?_, fun hout => ?_⟩
    · simp [Ui.Word.pop, h, hlt, hin]
    · simp [Ui.Word.pop, h, hlt, Nat.not_lt.mpr hout]

/-- Witness for `backspace_spec`: instantiations at concrete states. -/
theorem backspace_spec_witness :
    Test.procKey { words := [['a']], input := [], word := 0, pos := 0, timerRunning := false } .backspace = ({ words := [['a']], input := [], word := 0, pos := 0, timerRunning := false }, [], none) ∧
    Test.procKey { words := [['a']], input := ['x'], word := 0, pos := 1, timerRunning := true } .backspace = ({ words := [['a']], input := [], word := 0, pos := 0, timerRunning := true }, [], none) ∧
    Ui.Word.pop { initial := ['a'], chars := [('a', .empty)], pos := 0 } = ({ initial := ['a'], chars := [('a', .empty)], pos := 0 }, false) ∧
    Ui.Word.pop { initial := ['a'], chars := [('x', .correct)], pos := 1 } = ({ initial := ['a'], chars := [('a', .empty)], pos := 0 }, true) ∧
    Ui.Word.pop { initial := ['a'], chars := [('a', .correct), ('y', .extra)], pos := 2 } = ({ initial := ['a'], chars := [('a', .correct)], pos := 1 }, true) := by
  have h1 := backspace_spec.1 { words := [['a']], input := [], word := 0, pos := 0, timerRunning := false } rfl
  have h2 := backspace_spec.2.1 { words := [['a']], input := ['x'], word := 0, pos := 1, timerRunning := true } (by decide)
  have h3 := backspace_spec.2.2.1 { initial := ['a'], chars := [('a', .empty)], pos := 0 } rfl
  have h4 := (backspace_spec.2.2.2 { initial := ['a'], chars := [('x', .correct)], pos := 1 } (by decide) (by decide)).1 (by decide)
  have h5 := (backspace_spec.2.2.2 { initial := ['a'], chars := [('a', .correct), ('y', .extra)], pos := 2 } (by decide) (by decide)).2 (by decide)
  refine ⟨h1, ?_, h3, ?_, ?_⟩
  · simpa using h2
  · simpa using h4
  · simpa using h5

/-! ## Claim C1: word completion on space -/

/-- C1: a space typed when the accumulated input exactly equals the current
target word completes it — a `Complete(currentWord)` step is logged, the
buffer is cleared, the cursor resets and the word index advances, with a
`Start(nextWord)` step unless it was the last word (then the loop breaks
with `quit = false`); any character keystroke not meeting that condition is
instead appended and classified (in the `"cats"` vs `"cat"` example, the
space is classified `Extra(' ')`).  (`[.start 0]` is the timer-start step
pushed by the first character of the session.) -/
theorem word_complete_spec (s : Test.TState) (hw : s.word < s.words.length) :
    (s.input = s.words.getD s.word [] →
      Test.procKey s (.char ' ') =
        ({ s with timerRunning := true, input := [], pos := 0, word := s.word + 1 },
          (if s.timerRunning then [] else [.start 0]) ++
            .complete s.word ::
              (if s.word + 1 = s.words.length then [] else [.start (s.word + 1)]),
          if s.word + 1 = s.words.length then some false else none)) ∧
    (∀ c : Char, ¬(c = ' ' ∧ s.input = s.words.getD s.word []) →
      Test.procKey s (.char c) =
        ({ s with timerRunning := true, input := s.input ++ [c], pos := s.pos + 1 },
          (if s.timerRunning then [] else [.start 0]) ++
            [.inputStep (Test.diffAt (s.input ++ [c]) (s.words.getD s.word []) s.pos)],
          none)) ∧
    (Test.procKey { words := [['c', 'a', 't']], input := ['c', 'a', 't', 's'], word := 0, pos := 4, timerRunning := true } (.char ' ') =
      ({ words := [['c', 'a', 't']], input := ['c', 'a', 't', 's', ' '], word := 0, pos := 5, timerRunning := true },
        [.inputStep (some (.extra ' '))], none)) := by
  refine ⟨fun heq => ?_, fun c hne => ?_, by decide⟩
  · by_cases hlast : s.word + 1 = s.words.length
    · simp [Test.procKey, Test.isQuitKey, Test.procChar, heq, hlast]
    · simp [Test.procKey, Test.isQuitKey, Test.procChar, heq, hlast]
  · have hne' : ¬(c = ' ' ∧ s.input = (s.words[s.word]?).getD []) := by
      rw [← List.getD_eq_getElem?_getD]; exact hne
    simp [Test.procKey, Test.isQuitKey, Test.procChar, hne']

/-- Witness for `word_complete_spec` with target list `["cat"]`: completing
input `"cat"` with a space, and appending to input `"cats"`. -/
theorem word_complete_spec_witness :
    Test.procKey { words := [['c', 'a', 't']], input := ['c', 'a', 't'], word := 0, pos := 3, timerRunning := true } (.char ' ') =
      ({ words := [['c', 'a', 't']], input := [], word := 1, pos := 0, timerRunning := true }, [.complete 0], some false) ∧
    Test.procKey { words := [['c', 'a', 't']], input := ['c', 'a', 't', 's'], word := 0, pos := 4, timerRunning := true } (.char 'x') =
      ({ words := [['c', 'a', 't']], input := ['c', 'a', 't', 's', 'x'], word := 0, pos := 5, timerRunning := true },
        [.inputStep (some (.extra 'x'))], none) ∧
    Test.procKey { words := [['c', 'a', 't']], input := ['c', 'a', 't', 's'], word := 0, pos := 4, timerRunning := true } (.char ' ') =
      ({ words := [['c', 'a', 't']], input := ['c', 'a', 't', 's', ' '], word := 0, pos := 5, timerRunning := true },
        [.inputStep (some (.extra ' '))], none) := by
  have h1 := word_complete_spec { words := [['c', 'a', 't']], input := ['c', 'a', 't'], word := 0, pos := 3, timerRunning := true } (by decide)
  have h2 := word_complete_spec { words := [['c', 'a', 't']], input := ['c', 'a', 't', 's'], word := 0, pos := 4, timerRunning := true } (by decide)
  refine ⟨?_, ?_, h2.2.2⟩
  · simpa using h1.1 (by decide)
  · simpa using h2.2.1 'x' (by decide)

/-! ## Claim C10: cursor/buffer invariant and `unreachable!()` safety -/

/-- When `i` is strictly inside the input, `diff_at` never reaches its
`unreachable!()` arm. -/
lemma diffAt_isSome (input target : List Char) (i : Nat) (hi : i < input.length) :
    Test.diffAt input target i ≠ none := by
  unfold Test.diffAt
  rcases h : target[i]? with _ | d
  · simp [List.getElem?_eq_getElem, hi, h]
  · have hc := List.getElem?_eq_getElem hi
    simp only [hc, h]
    split <;> simp

/-- One `procKey` step preserves `pos = input.length` and emits no
unreachable-diff step. -/
lemma procKey_inv (s : Test.TState) (k : Test.Key) (hinv : s.pos = s.input.length) :
    (Test.procKey s k).1.pos = (Test.procKey s k).1.input.length ∧
      Test.StepKind.inputStep none ∉ (Test.procKey s k).2.1 := by
  by_cases hq : Test.isQuitKey k
  · simp [Test.procKey, hq, hinv]
  · rcases k with c | _ | c | _ | _
    · simp [Test.procKey, hq, hinv]
    · simp [Test.isQuitKey] at hq
    · by_cases hdone : c = ' ' ∧ s.input = (s.words[s.word]?).getD []
      · by_cases hlast : s.word + 1 = s.words.length
        · constructor <;>
            simp [Test.procKey, Test.isQuitKey, Test.procChar, hdone, hlast]
        · constructor <;>
            simp [Test.procKey, Test.isQuitKey, Test.procChar, hdone, hlast]
      · have hsome : Test.diffAt (s.input ++ [c]) ((s.words[s.word]?).getD []) s.pos ≠ none :=
          diffAt_isSome _ _ _ (by simp [hinv])
        constructor
        · simp [Test.procKey, Test.isQuitKey, Test.procChar, hdone, hinv]
        · simp [Test.procKey, Test.isQuitKey, Test.procChar, hdone, hsome, Ne.symm hsome]
    · by_cases hp : s.pos > 0 <;>
        · rw [hinv] at hp
          simp [Test.procKey, hq, hp, hinv]
    · simp [Test.procKey, hq, hinv]

/-- The session-loop invariant, lifted over any key sequence. -/
lemma runKeys_inv (ks : List Test.Key) : ∀ (s : Test.TState) (steps : List Test.StepKind),
    s.pos = s.input.length → Test.StepKind.inputStep none ∉ steps →
    ((Test.runKeys s steps ks).state.pos = (Test.runKeys s steps ks).state.input.length ∧
      Test.StepKind.inputStep none ∉ (Test.runKeys s steps ks).steps) := by
  induction ks with
  | nil =>
    intro s steps h1 h2
    exact ⟨h1, h2⟩
  | cons k ks ih =>
    intro s steps h1 h2
    have hpk := procKey_inv s k h1
    rcases hpq : Test.procKey s k with ⟨s', st, b⟩
    rw [hpq] at hpk
    have hm : Test.StepKind.inputStep none ∉ steps ++ st := by
      simp only [List.mem_append]
      rintro (h | h)
      · exact h2 h
      · exact hpk.2 h
    rcases b with _ | q
    · simp only [Test.runKeys, hpq]
      exact ih s' (steps ++ st) hpk.1 hm
    · simp only [Test.runKeys, hpq]
      exact ⟨hpk.1, hm⟩

/-- C10: throughout the session loop the intra-word cursor equals the
character count of the pending input buffer, so every classification the
loop logs comes from a position strictly inside the input and the
`unreachable!()` arm of `diff_at` (modelled as the `none` diff) never
appears in the step log. -/
theorem pos_input_invariant (ws : List (List Char)) (ks : List Test.Key) :
    (Test.runKeys (Test.initState ws) [] ks).state.pos =
      (Test.runKeys (Test.initState ws) [] ks).state.input.length ∧
    Test.StepKind.inputStep none ∉ (Test.runKeys (Test.initState ws) [] ks).steps :=
  runKeys_inv ks (Test.initState ws) [] rfl (by simp)

/-! ## Claim C4: session result -/

/-- The session loop never changes the target word list. -/
lemma procKey_words (s : Test.TState) (k : Test.Key) :
    (Test.procKey s k).1.words = s.words := by
  by_cases hq : Test.isQuitKey k
  · simp [Test.procKey, hq]
  · rcases k with c | _ | c | _ | _ <;>
      simp [Test.procKey, Test.procChar, hq] <;>
      · split <;> (try split) <;> simp

/-- The timer is started exactly by character keystrokes and never stopped
inside the loop. -/
lemma procKey_timer (s : Test.TState) (k : Test.Key) :
    (Test.procKey s k).1.timerRunning = (s.timerRunning || Test.isCharKey k) := by
  by_cases hq : Test.isQuitKey k
  · simp [Test.procKey, hq]
    rcases k with c | _ | c | _ | _ <;> simp_all [Test.isQuitKey, Test.isCharKey]
  · rcases k with c | _ | c | _ | _ <;>
      simp [Test.procKey, Test.procChar, Test.isCharKey, hq] <;>
      · split <;> (try split) <;> simp

/-- A quit keystroke is never a character keystroke. -/
lemma isCharKey_of_quit (k : Test.Key) (h : Test.isQuitKey k = true) :
    Test.isCharKey k = false := by
  rcases k with c | _ | c | _ | _ <;> simp_all [Test.isQuitKey, Test.isCharKey]

/-- Inversion of a breaking `procKey` step: the loop breaks with `true`
only on a quit keystroke (leaving the state untouched), and with `false`
only on the character completing the final word. -/
lemma procKey_break (s : Test.TState) (k : Test.Key) (s' : Test.TState)
    (st : List Test.StepKind) (q : Bool)
    (h : Test.procKey s k = (s', st, some q)) :
    (q = true ∧ Test.isQuitKey k = true ∧ s' = s) ∨
      (q = false ∧ Test.isCharKey k = true ∧ s'.word = s.words.length) := by
  by_cases hq : Test.isQuitKey k
  · left
    simp [Test.procKey, hq] at h
    simp_all
  · right
    rcases k with c | _ | c | _ | _
    · simp [Test.procKey, hq] at h
    · simp [Test.isQuitKey] at hq
    · by_cases hdone : c = ' ' ∧ s.input = (s.words[s.word]?).getD []
      · obtain ⟨hc, hi⟩ := hdone
        subst hc
        by_cases hlast : s.word + 1 = s.words.length
        · simp [Test.procKey, Test.procChar, Test.isQuitKey, Test.isCharKey,
            hi, hlast] at h
          obtain ⟨h1, _, h3⟩ := h
          refine ⟨by simp [h3], rfl, ?_⟩
          simp [← h1]
        · simp [Test.procKey, Test.procChar, Test.isQuitKey, hi, hlast] at h
      · simp [Test.procKey, Test.procChar, Test.isQuitKey, hdone] at h
    · by_cases hp : s.pos > 0 <;> simp [Test.procKey, hq, hp] at h
    · simp [Test.procKey, hq] at h

/-- A non-breaking `procKey` step keeps the word index strictly inside the
word list. -/
lemma procKey_none_word (s : Test.TState) (k : Test.Key) (s' : Test.TState)
    (st : List Test.StepKind)
    (h : Test.procKey s k = (s', st, none)) (hw : s.word < s.words.length) :
    s'.word < s'.words.length := by
  have hws : s'.words = s.words := by
    have hx := procKey_words s k
    rw [h] at hx
    exact hx
  rw [hws]
  by_cases hq : Test.isQuitKey k
  · simp [Test.procKey, hq] at h
  · rcases k with c | _ | c | _ | _
    · simp [Test.procKey, hq] at h
      simp [← h.1, hw]
    · simp [Test.isQuitKey] at hq
    · by_cases hdone : c = ' ' ∧ s.input = (s.words[s.word]?).getD []
      · obtain ⟨hc, hi⟩ := hdone
        subst hc
        by_cases hlast : s.word + 1 = s.words.length
        · simp [Test.procKey, Test.procChar, Test.isQuitKey, hi, hlast] at h
        · simp [Test.procKey, Test.procChar, Test.isQuitKey, hi, hlast] at h
          have := h.1
          simp [← this]
          omega
      · simp [Test.procKey, Test.procChar, Test.isQuitKey, hdone] at h
        simp [← h.1, hw]
    · by_cases hp : s.pos > 0 <;>
        · simp [Test.procKey, hq, hp] at h
          simp [← h.1, hw]
    · simp [Test.procKey, hq] at h
      simp [← h.1, hw]

/-- Inversion of an ended session-loop run: the consumed keys form a prefix,
the timer ran iff a character key was consumed, the quit flag is `false`
exactly when every word was completed, and a `true` quit flag comes from a
final quit keystroke. -/
lemma runKeys_ended (ks : List Test.Key) :
    ∀ (s : Test.TState) (steps : List Test.StepKind) (q : Bool) (f : Test.TState)
      (st : List Test.StepKind) (rest : List Test.Key),
    Test.runKeys s steps ks = .ended q f st rest →
    s.word < s.words.length →
    f.words = s.words ∧
    ∃ pre, ks = pre ++ rest ∧ pre ≠ [] ∧
      f.timerRunning = (s.timerRunning || pre.any Test.isCharKey) ∧
      (q = false ↔ f.word = s.words.length) ∧
      (q = true → ∃ k, pre.getLast? = some k ∧ Test.isQuitKey k = true) := by
  induction ks with
  | nil =>
    intro s steps q f st rest h _
    simp [Test.runKeys] at h
  | cons k ks ih =>
    intro s steps q f st rest h hw
    rcases hpq : Test.procKey s k with ⟨s', st', b⟩
    rcases b with _ | q0
    · simp only [Test.runKeys, hpq] at h
      have hw' : s'.word < s'.words.length := procKey_none_word s k s' st' hpq hw
      obtain ⟨hws, pre, hpre, hne, htimer, hiff, hlast⟩ := ih s' (steps ++ st') q f st rest h hw'
      have hws2 : s'.words = s.words := by
        have hx := procKey_words s k
        rw [hpq] at hx
        exact hx
      have htk : s'.timerRunning = (s.timerRunning || Test.isCharKey k) := by
        have hx := procKey_timer s k
        rw [hpq] at hx
        exact hx
      refine ⟨by rw [hws, hws2], k :: pre, by simp [hpre], by simp, ?_, ?_, ?_⟩
      · rw [htimer, htk]
        simp [Bool.or_assoc]
      · rw [hiff, hws2]
      · intro hqt
        obtain ⟨k', hk1, hk2⟩ := hlast hqt
        refine ⟨k', ?_, hk2⟩
        rcases pre with _ | ⟨a, t⟩
        · simp at hk1
        · simpa using hk1
    · simp only [Test.runKeys, hpq] at h
      injection h with h1 h2 h3 h4
      subst h1
      subst h2
      subst h4
      rcases procKey_break s k s' st' q0 hpq with ⟨hq1, hq2, hq3⟩ | ⟨hq1, hq2, hq3⟩
      · refine ⟨by rw [hq3], [k], rfl, by simp, ?_, ?_, ?_⟩
        · rw [hq3]
          simp [isCharKey_of_quit k hq2]
        · constructor
          · intro hqf
            rw [hqf] at hq1
            exact absurd hq1 (by simp)
          · intro hwf
            rw [hq3] at hwf
            exact absurd hwf (by omega)
        · intro _
          exact ⟨k, rfl, hq2⟩
      · have htk : s'.timerRunning = (s.timerRunning || Test.isCharKey k) := by
          have hx := procKey_timer s k
          rw [hpq] at hx
          exact hx
        refine ⟨?_, [k], rfl, by simp, ?_, ?_, ?_⟩
        · have hx := procKey_words s k
          rw [hpq] at hx
          exact hx
        · simp [htk]
        · simp [hq1, hq3]
        · intro hqt
          rw [hqt] at hq1
          exact absurd hq1 (by simp)

/-- C4: once the session loop has broken, `Test::run` returns `None`
exactly when no character keystroke was consumed (the timer never
started); otherwise it returns the raw result carrying the word count, the
feature flags, the full ordered step log, the wall-clock start timestamp
and elapsed duration, and a quit flag that is `false` exactly when the
session ended by completing every word (and `true` only from a quit
keystroke, which is then the last consumed key). -/
theorem session_result_spec (ws : List (List Char)) (punct numbers : Bool)
    (wallStart elapsed : Nat) (ks : List Test.Key)
    (q : Bool) (f : Test.TState) (steps : List Test.StepKind) (rest : List Test.Key)
    (hne : ws ≠ [])
    (h : Test.runKeys (Test.initState ws) [] ks = .ended q f steps rest) :
    ∃ pre, ks = pre ++ rest ∧
      (Test.runResult ws punct numbers wallStart elapsed ks = some none ↔
        pre.any Test.isCharKey = false) ∧
      (pre.any Test.isCharKey = true →
        Test.runResult ws punct numbers wallStart elapsed ks =
          some (some { word_count := ws.length, punct := punct, numbers := numbers, steps := steps, start := wallStart, duration := elapsed, quit := q })) ∧
      (q = false ↔ f.word = ws.length) ∧
      (q = true → ∃ k, pre.getLast? = some k ∧ Test.isQuitKey k = true) := by
  have hw0 : (Test.initState ws).word < (Test.initState ws).words.length := by
    simp [Test.initState]
    exact List.length_pos.mpr hne
  obtain ⟨hws, pre, hpre, hpne, htimer, hiff, hqt⟩ :=
    runKeys_ended ks (Test.initState ws) [] q f steps rest h hw0
  have htimer' : f.timerRunning = pre.any Test.isCharKey := by
    rw [htimer]
    simp [Test.initState]
  have hrr : Test.runResult ws punct numbers wallStart elapsed ks =
      some (if f.timerRunning then
        some { word_count := ws.length, punct := punct, numbers := numbers, steps := steps, start := wallStart, duration := elapsed, quit := q }
      else none) := by
    unfold Test.runResult
    rw [h]
  refine ⟨pre, hpre, ?_, ?_, ?_, hqt⟩
  · rw [hrr, ← htimer']
    by_cases ht : f.timerRunning <;> simp [ht]
  · intro hany
    rw [hrr, htimer', hany]
    simp
  · rw [hiff]
    simp [Test.initState]

/-- Witness for `session_result_spec`: the word list `["a"]` with keys
`[Esc]` (instant abort: `None`) — the loop ends with `quit = true`. -/
theorem session_result_spec_witness :
    ∃ pre, ([Test.Key.esc] : List Test.Key) = pre ++ [] ∧
      (Test.runResult [['a']] false false 3 5 [Test.Key.esc] = some none ↔
        pre.any Test.isCharKey = false) ∧
      (pre.any Test.isCharKey = true →
        Test.runResult [['a']] false false 3 5 [Test.Key.esc] =
          some (some { word_count := 1, punct := false, numbers := false, steps := [], start := 3, duration := 5, quit := true })) ∧
      (true = false ↔ (Test.initState [['a']]).word = 1) ∧
      (true = true → ∃ k, pre.getLast? = some k ∧ Test.isQuitKey k = true) :=
  session_result_spec [['a']] false false 3 5 [Test.Key.esc] true
    (Test.initState [['a']]) [] [] (by simp) (by rfl)

/-! ## Claim C7: line wrap -/

/-- Structural invariants of the `wrap` loop: the produced lines are
non-empty, start where asked, chain contiguously up to the end of the
word list, keep `start ≤ stop`, close a line only when it already holds a
word and the next word would overflow, and all stops lie at or past the
current index. -/
lemma wrapGo_spec (width : Nat) :
    ∀ (ws : List Nat) (i start lw : Nat), start ≤ i →
    (Ui.wrapGo width ws i start lw ≠ [] ∧
      ((Ui.wrapGo width ws i start lw).getD 0 default).start = start ∧
      ((Ui.wrapGo width ws i start lw).getD ((Ui.wrapGo width ws i start lw).length - 1) default).stop = i + ws.length ∧
      ((Ui.wrapGo width ws i start lw).getD ((Ui.wrapGo width ws i start lw).length - 1) default).start ≤ ((Ui.wrapGo width ws i start lw).getD ((Ui.wrapGo width ws i start lw).length - 1) default).stop ∧
      (∀ j, j + 1 < (Ui.wrapGo width ws i start lw).length →
        ((Ui.wrapGo width ws i start lw).getD j default).stop = ((Ui.wrapGo width ws i start lw).getD (j + 1) default).start) ∧
      (∀ j, j + 1 < (Ui.wrapGo width ws i start lw).length →
        ((Ui.wrapGo width ws i start lw).getD j default).start < ((Ui.wrapGo width ws i start lw).getD j default).stop ∧
        width < ((Ui.wrapGo width ws i start lw).getD j default).len + ws.getD (((Ui.wrapGo width ws i start lw).getD j default).stop - i) 0) ∧
      (∀ j, j < (Ui.wrapGo width ws i start lw).length →
        i ≤ ((Ui.wrapGo width ws i start lw).getD j default).stop)) := by
  intro ws
  induction ws with
  | nil =>
    intro i start lw hsi
    refine ⟨by simp [Ui.wrapGo], by simp [Ui.wrapGo], by simp [Ui.wrapGo], ?_, ?_, ?_, ?_⟩
    · simpa [Ui.wrapGo] using hsi
    · intro j hj
      simp [Ui.wrapGo] at hj
    · intro j hj
      simp [Ui.wrapGo] at hj
    · intro j hj
      simp [Ui.wrapGo] at hj ⊢
      simp [hj]
  | cons w rest ih =>
    intro i start lw hsi
    by_cases hcl : i > start ∧ lw + w > width
    · have hrec := ih (i + 1) i (w + 1) (Nat.le_succ i)
      obtain ⟨hne, hhead, hlaststop, hlastle, hadj, hclose, hstops⟩ := hrec
      have hGo : Ui.wrapGo width (w :: rest) i start lw =
          { start := start, stop := i, len := lw } :: Ui.wrapGo width rest (i + 1) i (w + 1) := by
        simp [Ui.wrapGo, hcl]
      rcases hL : Ui.wrapGo width rest (i + 1) i (w + 1) with _ | ⟨l0, Ltail⟩
      · exact absurd hL hne
      rw [hL] at hhead hlaststop hlastle hadj hclose hstops
      rw [hGo, hL]
      refine ⟨by simp, by simp, ?_, ?_, ?_, ?_, ?_⟩
      · simp only [List.length_cons, Nat.add_sub_cancel, List.getD_cons_succ] at hlaststop ⊢
        omega
      · simp only [List.length_cons, Nat.add_sub_cancel, List.getD_cons_succ] at hlastle ⊢
        exact hlastle
      · intro j hj
        rcases j with _ | j
        · simpa using hhead.symm
        · have hx := hadj j (by simp only [List.length_cons] at hj ⊢; omega)
          simpa using hx
      · intro j hj
        rcases j with _ | j
        · refine ⟨hcl.1, ?_⟩
          simpa using hcl.2
        · have hcj := hclose j (by simp only [List.length_cons] at hj ⊢; omega)
          have hsj := hstops j (by simp only [List.length_cons] at hj ⊢; omega)
          refine ⟨by simpa using hcj.1, ?_⟩
          rcases Nat.exists_eq_add_of_le hsj with ⟨m, hm⟩
          simp only [List.getD_cons_succ]
          rw [hm, show i + 1 + m - i = m + 1 from by omega]
          rw [hm, show i + 1 + m - (i + 1) = m from by omega] at hcj
          simpa using hcj.2
      · intro j hj
        rcases j with _ | j
        · simp
        · have hx := hstops j (by simp only [List.length_cons] at hj ⊢; omega)
          simp only [List.getD_cons_succ]
          omega
    · have hrec := ih (i + 1) start (lw + w + 1) (Nat.le_succ_of_le hsi)
      obtain ⟨hne, hhead, hlaststop, hlastle, hadj, hclose, hstops⟩ := hrec
      have hGo : Ui.wrapGo width (w :: rest) i start lw =
          Ui.wrapGo width rest (i + 1) start (lw + w + 1) := by
        simp [Ui.wrapGo, hcl]
      rw [hGo]
      refine ⟨hne, hhead, by rw [hlaststop]; simp; omega, hlastle, hadj, ?_, ?_⟩
      · intro j hj
        have hcj := hclose j hj
        have hsj : i + 1 ≤ ((Ui.wrapGo width rest (i + 1) start (lw + w + 1)).getD j default).stop :=
          hstops j (by omega)
        refine ⟨hcj.1, ?_⟩
        rcases Nat.exists_eq_add_of_le hsj with ⟨m, hm⟩
        rw [hm, show i + 1 + m - i = m + 1 from by omega]
        rw [hm, show i + 1 + m - (i + 1) = m from by omega] at hcj
        simpa using hcj.2
      · intro j hj
        have hx := hstops j hj
        omega

/-- In a chained line list, the line starts are monotone. -/
lemma lines_starts_mono (L : List Ui.Line)
    (hadj : ∀ j, j + 1 < L.length → (L.getD j default).stop = (L.getD (j + 1) default).start)
    (hle : ∀ j, j < L.length → (L.getD j default).start ≤ (L.getD j default).stop) :
    ∀ a b, a ≤ b → b < L.length → (L.getD a default).start ≤ (L.getD b default).start := by
  intro a b
  induction b with
  | zero =>
    intro hab _
    have : a = 0 := Nat.le_zero.mp hab
    rw [this]
  | succ b ih =>
    intro hab hb
    rcases Nat.lt_or_ge a (b + 1) with hlt | hge
    · have h1 : a ≤ b := by omega
      have h2 : b < L.length := by omega
      calc (L.getD a default).start ≤ (L.getD b default).start := ih h1 h2
        _ ≤ (L.getD b default).stop := hle b h2
        _ = (L.getD (b + 1) default).start := hadj b hb
    · have : a = b + 1 := by omega
      rw [this]

/-- A chained line list running from 0 to `n` covers each `m < n` by
exactly one line. -/
lemma lines_cover (L : List Ui.Line) (n : Nat) (hne : L ≠ [])
    (h0 : (L.getD 0 default).start = 0)
    (hl : (L.getD (L.length - 1) default).stop = n)
    (hadj : ∀ j, j + 1 < L.length → (L.getD j default).stop = (L.getD (j + 1) default).start)
    (hle : ∀ j, j < L.length → (L.getD j default).start ≤ (L.getD j default).stop)
    (m : Nat) (hm : m < n) :
    ∃! j, j < L.length ∧ (L.getD j default).start ≤ m ∧ m < (L.getD j default).stop := by
  classical
  have hlen : 0 < L.length := List.length_pos.mpr hne
  have hex : ∃ j, j < L.length ∧ m < (L.getD j default).stop :=
    ⟨L.length - 1, by omega, by rw [hl]; exact hm⟩
  refine ⟨Nat.find hex, ⟨(Nat.find_spec hex).1, ?_, (Nat.find_spec hex).2⟩, ?_⟩
  · rcases Nat.eq_zero_or_pos (Nat.find hex) with h0f | hpos
    · rw [h0f, h0]
      exact Nat.zero_le m
    · have hmin := Nat.find_min hex (Nat.sub_lt hpos Nat.one_pos)
      have hlt : Nat.find hex - 1 < L.length := by
        have := (Nat.find_spec hex).1
        omega
      have hstop : (L.getD (Nat.find hex - 1) default).stop ≤ m := by
        by_contra hc
        exact hmin ⟨hlt, by omega⟩
      have hadj' := hadj (Nat.find hex - 1) (by
        have := (Nat.find_spec hex).1
        omega)
      rw [show Nat.find hex - 1 + 1 = Nat.find hex from by omega] at hadj'
      rw [← hadj']
      exact hstop
  · rintro j' ⟨hj1, hj2, hj3⟩
    have hge : Nat.find hex ≤ j' := Nat.find_min' hex ⟨hj1, hj3⟩
    by_contra hne'
    have hlt : Nat.find hex < j' := by omega
    have hmono := lines_starts_mono L hadj hle (Nat.find hex + 1) j' (by omega) hj1
    have hadj' := hadj (Nat.find hex) (by omega)
    have : m < (L.getD j' default).start := by
      calc m < (L.getD (Nat.find hex) default).stop := (Nat.find_spec hex).2
        _ = (L.getD (Nat.find hex + 1) default).start := hadj'
        _ ≤ (L.getD j' default).start := hmono
    omega

/-- C7: `wrap` is a pure function of the word widths and the available
width, its lines exactly partition the word indices (first start 0,
contiguous adjacent ranges, last stop at the word count, each index
covered by exactly one line), a line is closed before word `i` only when
it already holds at least one word and adding word `i` would exceed the
width, and a final line always exists. -/
theorem wrap_partition (ws : List Nat) (width : Nat) :
    (∀ L1 L2, L1 = Ui.wrap ws width → L2 = Ui.wrap ws width → L1 = L2) ∧
    Ui.wrap ws width ≠ [] ∧
    ((Ui.wrap ws width).getD 0 default).start = 0 ∧
    ((Ui.wrap ws width).getD ((Ui.wrap ws width).length - 1) default).stop = ws.length ∧
    (∀ j, j + 1 < (Ui.wrap ws width).length →
      ((Ui.wrap ws width).getD j default).stop = ((Ui.wrap ws width).getD (j + 1) default).start) ∧
    (∀ j, j < (Ui.wrap ws width).length →
      ((Ui.wrap ws width).getD j default).start ≤ ((Ui.wrap ws width).getD j default).stop) ∧
    (∀ m, m < ws.length → ∃! j, j < (Ui.wrap ws width).length ∧
      ((Ui.wrap ws width).getD j default).start ≤ m ∧
      m < ((Ui.wrap ws width).getD j default).stop) ∧
    (∀ j, j + 1 < (Ui.wrap ws width).length →
      ((Ui.wrap ws width).getD j default).start < ((Ui.wrap ws width).getD j default).stop ∧
      width < ((Ui.wrap ws width).getD j default).len +
        ws.getD ((Ui.wrap ws width).getD j default).stop 0) := by
  obtain ⟨hne, hhead, hlaststop, hlastle, hadj, hclose, hstops⟩ :=
    wrapGo_spec width ws 0 0 0 (Nat.le_refl 0)
  have hzero : ∀ x : Nat, x - 0 = x := fun x => Nat.sub_zero x
  have hle : ∀ j, j < (Ui.wrap ws width).length →
      ((Ui.wrap ws width).getD j default).start ≤ ((Ui.wrap ws width).getD j default).stop := by
    intro j hj
    rcases Nat.lt_or_ge (j + 1) (Ui.wrap ws width).length with hlt | hge
    · exact Nat.le_of_lt (hclose j hlt).1
    · have : j = (Ui.wrap ws width).length - 1 := by omega
      rw [this]
      exact hlastle
  refine ⟨fun L1 L2 h1 h2 => by rw [h1, h2], hne, hhead, by simpa using hlaststop, hadj, hle, ?_, ?_⟩
  · intro m hm
    exact lines_cover (Ui.wrap ws width) ws.length hne hhead (by simpa using hlaststop)
      hadj hle m hm
  · intro j hj
    have hcj := hclose j hj
    rw [hzero] at hcj
    exact hcj

/-! ## Claim C5: bounded integer draws -/

/-- A Wyrand draw is a 64-bit value. -/
lemma genU64_snd_lt (s : Nat) : (Rand.genU64 s).2 < Rand.U64 := by
  unfold Rand.genU64 Rand.U64
  exact Nat.xor_lt_two_pow (Nat.mod_lt _ (by norm_num)) (Nat.mod_lt _ (by norm_num))

/-- A truncated draw is a 32-bit value. -/
lemma genU32_snd_lt (s : Nat) : (Rand.genU32 s).2 < Rand.U32 := by
  unfold Rand.genU32 Rand.U32
  exact Nat.mod_lt _ (by norm_num)

/-- The high half of a double-width product with a 64-bit factor is below
the other factor. -/
lemma mulHighU64_lt (r n : Nat) (hr : r < Rand.U64) (hn : 0 < n) :
    Rand.mulHighU64 r n < n := by
  unfold Rand.mulHighU64
  rw [Nat.div_lt_iff_lt_mul (by unfold Rand.U64; norm_num)]
  calc r * n < Rand.U64 * n := (Nat.mul_lt_mul_right hn).mpr hr
    _ = n * Rand.U64 := Nat.mul_comm _ _

/-- The high half of a double-width product with a 32-bit factor is below
the other factor. -/
lemma mulHighU32_lt (r n : Nat) (hr : r < Rand.U32) (hn : 0 < n) :
    Rand.mulHighU32 r n < n := by
  unfold Rand.mulHighU32
  rw [Nat.div_lt_iff_lt_mul (by unfold Rand.U32; norm_num)]
  calc r * n < Rand.U32 * n := (Nat.mul_lt_mul_right hn).mpr hr
    _ = n * Rand.U32 := Nat.mul_comm _ _

/-- Any value produced by the 64-bit rejection loop lies in `0..n`. -/
lemma genModU64Go_lt (n t : Nat) (hn : 0 < n) :
    ∀ (fuel s st v : Nat), Rand.genModU64Go n t fuel s = some (st, v) → v < n := by
  intro fuel
  induction fuel with
  | zero =>
    intro s st v h
    simp [Rand.genModU64Go] at h
  | succ fuel ih =>
    intro s st v h
    rcases hg : Rand.genU64 s with ⟨s1, r⟩
    simp only [Rand.genModU64Go, hg] at h
    split at h
    · exact ih s1 st v h
    · injection h with h1
      injection h1 with h2 h3
      rw [← h3]
      exact mulHighU64_lt r n (by have := genU64_snd_lt s; rw [hg] at this; exact this) hn

/-- Any value produced by `gen_mod_u64` lies in `0..n`. -/
lemma genModU64_lt (fuel s n st v : Nat) (hn : 0 < n)
    (h : Rand.genModU64 fuel s n = some (st, v)) : v < n := by
  rcases hg : Rand.genU64 s with ⟨s1, r⟩
  have hr : r < Rand.U64 := by
    have := genU64_snd_lt s
    rw [hg] at this
    exact this
  simp only [Rand.genModU64, hg] at h
  split at h
  · split at h
    · exact genModU64Go_lt n _ hn fuel s1 st v h
    · injection h with h1
      injection h1 with h2 h3
      rw [← h3]
      exact mulHighU64_lt r n hr hn
  · injection h with h1
    injection h1 with h2 h3
    rw [← h3]
    exact mulHighU64_lt r n hr hn

/-- Any value produced by the 32-bit rejection loop lies in `0..n`. -/
lemma genModU32Go_lt (n t : Nat) (hn : 0 < n) :
    ∀ (fuel s st v : Nat), Rand.genModU32Go n t fuel s = some (st, v) → v < n := by
  intro fuel
  induction fuel with
  | zero =>
    intro s st v h
    simp [Rand.genModU32Go] at h
  | succ fuel ih =>
    intro s st v h
    rcases hg : Rand.genU32 s with ⟨s1, r⟩
    simp only [Rand.genModU32Go, hg] at h
    split at h
    · exact ih s1 st v h
    · injection h with h1
      injection h1 with h2 h3
      rw [← h3]
      exact mulHighU32_lt r n (by have := genU32_snd_lt s; rw [hg] at this; exact this) hn

/-- Any value produced by `gen_mod_u32` lies in `0..n`. -/
lemma genModU32_lt (fuel s n st v : Nat) (hn : 0 < n)
    (h : Rand.genModU32 fuel s n = some (st, v)) : v < n := by
  rcases hg : Rand.genU32 s with ⟨s1, r⟩
  have hr : r < Rand.U32 := by
    have := genU32_snd_lt s
    rw [hg] at this
    exact this
  simp only [Rand.genModU32, hg] at h
  split at h
  · split at h
    · exact genModU32Go_lt n _ hn fuel s1 st v h
    · injection h with h1
      injection h1 with h2 h3
      rw [← h3]
      exact mulHighU32_lt r n hr hn
  · injection h with h1
    injection h1 with h2 h3
    rw [← h3]
    exact mulHighU32_lt r n hr hn

/-- `rng_integer` panics when the resolved bounds give an empty range. -/
lemma rngInteger_panic (w : Nat) (gen : Nat → Nat × Nat)
    (genMod : Nat → Nat → Nat → Option (Nat × Nat)) (fuel s : Nat)
    (lo hi : Rand.RBound) (low high : Nat)
    (hlo : Rand.resolveLow w lo = some low) (hhi : Rand.resolveHigh w hi = some high)
    (hlh : high < low) :
    Rand.rngInteger w gen genMod fuel s lo hi = .panicked := by
  unfold Rand.rngInteger
  rw [hlo, hhi]
  simp [hlh]

/-- On a non-empty resolved range within the type, any value `rng_integer`
returns lies in `[low, high]`. -/
lemma rngInteger_range (w : Nat) (gen : Nat → Nat × Nat)
    (genMod : Nat → Nat → Nat → Option (Nat × Nat))
    (hgm : ∀ fuel s n, 0 < n → ∀ st v, genMod fuel s n = some (st, v) → v < n)
    (fuel s : Nat) (lo hi : Rand.RBound) (low high st v : Nat)
    (hlo : Rand.resolveLow w lo = some low) (hhi : Rand.resolveHigh w hi = some high)
    (hle : low ≤ high) (hhw : high < 2 ^ w)
    (h : Rand.rngInteger w gen genMod fuel s lo hi = .ok st v) :
    low ≤ v ∧ v ≤ high := by
  unfold Rand.rngInteger at h
  rw [hlo, hhi] at h
  dsimp only at h
  rw [if_neg (by omega)] at h
  by_cases hfull : low = 0 ∧ high = 2 ^ w - 1
  · rw [if_pos hfull] at h
    rcases hg : gen s with ⟨s1, r⟩
    rw [hg] at h
    injection h with h1 h2
    have hmod : r % 2 ^ w < 2 ^ w := Nat.mod_lt _ (Nat.pos_pow_of_pos w (by norm_num))
    rw [← h2]
    constructor
    · rw [hfull.1]
      exact Nat.zero_le _
    · rw [hfull.2]
      omega
  · rw [if_neg hfull] at h
    have hsub : (high - low) % 2 ^ w = high - low :=
      Nat.mod_eq_of_lt (by omega)
    have hlen1 : high - low + 1 < 2 ^ w := by
      rcases Nat.lt_or_ge (high - low + 1) (2 ^ w) with hx | hx
      · exact hx
      · exfalso
        have hlow : low = 0 := by omega
        have hhigh : high = 2 ^ w - 1 := by omega
        exact hfull ⟨hlow, hhigh⟩
    have hlen : ((high - low) % 2 ^ w + 1) % 2 ^ w = high - low + 1 := by
      rw [hsub]
      exact Nat.mod_eq_of_lt hlen1
    rw [hlen] at h
    rcases hgm' : genMod fuel s (high - low + 1) with _ | ⟨s1, v1⟩ <;> rw [hgm'] at h
    · cases h
    · have hv1 : v1 < high - low + 1 :=
        hgm fuel s (high - low + 1) (by omega) s1 v1 hgm'
      injection h with h1 h2
      have hmod : (low + v1) % 2 ^ w = low + v1 := Nat.mod_eq_of_lt (by omega)
      rw [← h2, hmod]
      omega

/-- On the full representable range, `rng_integer` returns the raw draw
cast to the type's width, with no call to the Lemire reducer. -/
lemma rngInteger_full (w : Nat) (gen : Nat → Nat × Nat)
    (genMod : Nat → Nat → Nat → Option (Nat × Nat)) (fuel s : Nat) :
    Rand.rngInteger w gen genMod fuel s .unbounded .unbounded =
      .ok (gen s).1 ((gen s).2 % 2 ^ w) := by
  unfold Rand.rngInteger Rand.resolveLow Rand.resolveHigh
  rcases hg : gen s with ⟨s1, r⟩
  simp [hg]

/-- C5 counterexample: a full-range `u8` draw does not return the raw
generator value verbatim.  At seed 0 the raw `gen_u32` draw is
`2405016974`, but `Rng::u8(..)` returns its truncating cast `142`
(`2405016974 % 2^8`). -/
theorem bounded_draw_u8_not_verbatim :
    Rand.rngU8 1 0 .unbounded .unbounded = .ok 11562461410679940143 142 ∧
    Rand.genU32 0 = (11562461410679940143, 2405016974) ∧
    (142 : Nat) ≠ 2405016974 := by
  refine ⟨by decide, by decide, by decide⟩

/-- C5 (amended): for each bounded draw (`u8`, `u64`, `usize`), an empty
resolved range (`low > high`) panics and never clamps; on a non-empty
range every returned value lies in `[low, high]`; and on the full
representable range the raw draw is returned with no Lemire reduction —
verbatim for `u64`/`usize`, and reduced only by the truncating `as u8`
cast (low 8 bits of the raw 32-bit draw) for `u8`. -/
theorem bounded_draw_spec :
    (∀ fuel s lo hi low high, Rand.resolveLow 8 lo = some low →
      Rand.resolveHigh 8 hi = some high → high < low →
      Rand.rngU8 fuel s lo hi = .panicked) ∧
    (∀ fuel s lo hi low high, Rand.resolveLow 64 lo = some low →
      Rand.resolveHigh 64 hi = some high → high < low →
      Rand.rngU64 fuel s lo hi = .panicked ∧ Rand.rngUsize fuel s lo hi = .panicked) ∧
    (∀ fuel s lo hi low high st v, Rand.resolveLow 8 lo = some low →
      Rand.resolveHigh 8 hi = some high → low ≤ high → high < 2 ^ 8 →
      Rand.rngU8 fuel s lo hi = .ok st v → low ≤ v ∧ v ≤ high) ∧
    (∀ fuel s lo hi low high st v, Rand.resolveLow 64 lo = some low →
      Rand.resolveHigh 64 hi = some high → low ≤ high → high < 2 ^ 64 →
      (Rand.rngU64 fuel s lo hi = .ok st v ∨ Rand.rngUsize fuel s lo hi = .ok st v) →
      low ≤ v ∧ v ≤ high) ∧
    (∀ fuel s, Rand.rngU8 fuel s .unbounded .unbounded =
      .ok (Rand.genU32 s).1 ((Rand.genU32 s).2 % 2 ^ 8)) ∧
    (∀ fuel s, Rand.rngU64 fuel s .unbounded .unbounded =
      .ok (Rand.genU64 s).1 (Rand.genU64 s).2) ∧
    (∀ fuel s, Rand.rngUsize fuel s .unbounded .unbounded =
      .ok (Rand.genU64 s).1 (Rand.genU64 s).2) := by
  have hgm64 : ∀ fuel s n, 0 < n → ∀ st v, Rand.genModU64 fuel s n = some (st, v) → v < n :=
    fun fuel s n hn st v h => genModU64_lt fuel s n st v hn h
  have hgm32 : ∀ fuel s n, 0 < n → ∀ st v, Rand.genModU32 fuel s n = some (st, v) → v < n :=
    fun fuel s n hn st v h => genModU32_lt fuel s n st v hn h
  refine ⟨?_, ?_, ?_, ?_, ?_, ?_, ?_⟩
  · intro fuel s lo hi low high hlo hhi hlh
    exact rngInteger_panic 8 Rand.genU32 Rand.genModU32 fuel s lo hi low high hlo hhi hlh
  · intro fuel s lo hi low high hlo hhi hlh
    exact ⟨rngInteger_panic 64 Rand.genU64 Rand.genModU64 fuel s lo hi low high hlo hhi hlh,
      rngInteger_panic 64 Rand.genU64 Rand.genModU64 fuel s lo hi low high hlo hhi hlh⟩
  · intro fuel s lo hi low high st v hlo hhi hle hhw h
    exact rngInteger_range 8 Rand.genU32 Rand.genModU32 hgm32 fuel s lo hi low high st v
      hlo hhi hle hhw h
  · intro fuel s lo hi low high st v hlo hhi hle hhw h
    rcases h with h | h <;>
      exact rngInteger_range 64 Rand.genU64 Rand.genModU64 hgm64 fuel s lo hi low high st v
        hlo hhi hle hhw h
  · intro fuel s
    exact rngInteger_full 8 Rand.genU32 Rand.genModU32 fuel s
  · intro fuel s
    have h := rngInteger_full 64 Rand.genU64 Rand.genModU64 fuel s
    have hlt : (Rand.genU64 s).2 < 2 ^ 64 := genU64_snd_lt s
    rwa [Nat.mod_eq_of_lt hlt] at h
  · intro fuel s
    have h := rngInteger_full 64 Rand.genU64 Rand.genModU64 fuel s
    have hlt : (Rand.genU64 s).2 < 2 ^ 64 := genU64_snd_lt s
    rwa [Nat.mod_eq_of_lt hlt] at h

/-- Witness for `bounded_draw_spec`: concrete draws of each shape — an
empty range `5..=3` panics, a draw in `2..=5` lands in `[2, 5]`, and the
full-range draws at seed 0. -/
theorem bounded_draw_spec_witness :
    Rand.rngU8 1 0 (.included 5) (.included 3) = .panicked ∧
    Rand.rngU64 1 0 (.included 5) (.included 3) = .panicked ∧
    Rand.rngUsize 1 0 (.included 5) (.included 3) = .panicked ∧
    (2 ≤ (4 : Nat) ∧ (4 : Nat) ≤ 5) ∧
    Rand.rngU8 1 0 .unbounded .unbounded = .ok (Rand.genU32 0).1 ((Rand.genU32 0).2 % 2 ^ 8) ∧
    Rand.rngU64 1 0 .unbounded .unbounded = .ok (Rand.genU64 0).1 (Rand.genU64 0).2 ∧
    Rand.rngUsize 1 0 .unbounded .unbounded = .ok (Rand.genU64 0).1 (Rand.genU64 0).2 := by
  have h1 := bounded_draw_spec.1 1 0 (.included 5) (.included 3) 5 3 rfl rfl (by omega)
  have h2 := bounded_draw_spec.2.1 1 0 (.included 5) (.included 3) 5 3 rfl rfl (by omega)
  have hrange : Rand.rngU8 1 0 (.included 2) (.included 5) = .ok 11562461410679940143 4 := by
    decide
  have h3 := bounded_draw_spec.2.2.1 1 0 (.included 2) (.included 5) 2 5
    11562461410679940143 4 rfl rfl (by omega) (by norm_num) hrange
  exact ⟨h1, h2.1, h2.2, h3, bounded_draw_spec.2.2.2.2.1 1 0,
    bounded_draw_spec.2.2.2.2.2.1 1 0, bounded_draw_spec.2.2.2.2.2.2 1 0⟩

/-! ## Claim C6: reservoir sampling -/

/-- A `usize(..end)` draw that succeeds yields a value below `end`. -/
lemma rngUsize_rangeTo_lt (fuel s e st v : Nat) (he : 0 < e) (he2 : e < 2 ^ 64)
    (h : Rand.rngUsize fuel s .unbounded (.excluded e) = .ok st v) : v < e := by
  have hgm64 : ∀ fuel s n, 0 < n → ∀ st v, Rand.genModU64 fuel s n = some (st, v) → v < n :=
    fun fuel s n hn st v h => genModU64_lt fuel s n st v hn h
  have hhi : Rand.resolveHigh 64 (.excluded e) = some (e - 1) := by
    simp [Rand.resolveHigh, Nat.pos_iff_ne_zero.mp he]
  have hr := rngInteger_range 64 Rand.genU64 Rand.genModU64 hgm64 fuel s
    .unbounded (.excluded e) 0 (e - 1) st v rfl hhi (by omega) (by omega) h
  omega

/-- The reservoir loop preserves the reservoir's length. -/
lemma chooseGo_length {α : Type} (amount fuel : Nat) :
    ∀ (rest : List α) (s : Nat) (res : List α) (i st : Nat) (out : List α),
    Rand.chooseGo amount fuel s res i rest = some (st, out) → out.length = res.length := by
  intro rest
  induction rest with
  | nil =>
    intro s res i st out h
    simp [Rand.chooseGo] at h
    rw [← h.2]
  | cons x rest ih =>
    intro s res i st out h
    rw [Rand.chooseGo] at h
    rcases hd : Rand.rngUsize fuel s .unbounded (.excluded (i + 1 + amount)) with ⟨s1, k⟩ | _ | _ <;>
      rw [hd] at h
    · have := ih s1 (if k < res.length then res.set k x else res) (i + 1) st out h
      rw [this]
      split <;> simp
    · cases h
    · cases h

/-- The reservoir loop is the explicit overwrite fold over draws that are
each bounded by `amount + i + offset`. -/
lemma chooseGo_spec {α : Type} (amount fuel : Nat) :
    ∀ (rest : List α) (s : Nat) (res : List α) (i st : Nat) (out : List α),
    amount + i + rest.length < 2 ^ 64 →
    Rand.chooseGo amount fuel s res i rest = some (st, out) →
    ∃ ks : List Nat, ks.length = rest.length ∧
      (∀ m, m < ks.length → ks.getD m 0 ≤ amount + i + m) ∧
      out = Rand.applyDraws res rest ks := by
  intro rest
  induction rest with
  | nil =>
    intro s res i st out _ h
    simp [Rand.chooseGo] at h
    exact ⟨[], rfl, by intro m hm; simp at hm, by rw [← h.2]; rfl⟩
  | cons x rest ih =>
    intro s res i st out hbound h
    rw [List.length_cons] at hbound
    rw [Rand.chooseGo] at h
    rcases hd : Rand.rngUsize fuel s .unbounded (.excluded (i + 1 + amount)) with ⟨s1, k⟩ | _ | _ <;>
      rw [hd] at h
    · have hk : k < i + 1 + amount :=
        rngUsize_rangeTo_lt fuel s (i + 1 + amount) s1 k (by omega) (by omega) hd
      obtain ⟨ks, hlen, hbd, hout⟩ := ih s1 (if k < res.length then res.set k x else res)
        (i + 1) st out (by omega) h
      refine ⟨k :: ks, by simp [hlen], ?_, ?_⟩
      · intro m hm
        rcases m with _ | m
        · simp only [List.getD_cons_zero]
          omega
        · simp only [List.getD_cons_succ]
          have hx := hbd m (by simp only [List.length_cons] at hm; omega)
          omega
      · rw [hout]
        rfl
    · cases h
    · cases h

/-- C6: `choose_multiple` on a stream of `n` items returns exactly the `n`
collected items in stream order when `n < amount` (no error); when
`n ≥ amount` any successful run returns exactly `amount` items, obtained
from the first `amount` items by the overwrite fold in which the element
at offset `m` past the reservoir replaces slot `k` only when its drawn
index `k ≤ amount + m` lands inside the reservoir (`k < amount`). -/
theorem choose_multiple_spec {α : Type} (fuel s : Nat) (l : List α) (amount : Nat) :
    (l.length < amount → Rand.chooseMultiple fuel s l amount = some (s, l)) ∧
    (∀ st out, amount ≤ l.length → l.length < 2 ^ 64 →
      Rand.chooseMultiple fuel s l amount = some (st, out) →
      out.length = amount ∧
      ∃ ks : List Nat, ks.length = l.length - amount ∧
        (∀ m, m < ks.length → ks.getD m 0 ≤ amount + m) ∧
        out = Rand.applyDraws (l.take amount) (l.drop amount) ks) := by
  constructor
  · intro hlt
    unfold Rand.chooseMultiple
    have htake : l.take amount = l := List.take_of_length_le (by omega)
    rw [htake, if_neg (by omega)]
  · intro st out hge hbig h
    unfold Rand.chooseMultiple at h
    have htl : (l.take amount).length = amount := by
      simp only [List.length_take]
      omega
    rw [if_pos htl] at h
    have hlen := chooseGo_length amount fuel (l.drop amount) s (l.take amount) 0 st out h
    have hspec := chooseGo_spec amount fuel (l.drop amount) s (l.take amount) 0 st out
      (by simp only [List.length_drop]; omega) h
    refine ⟨by rw [hlen, htl], ?_⟩
    obtain ⟨ks, h1, h2, h3⟩ := hspec
    refine ⟨ks, by simpa using h1, ?_, h3⟩
    intro m hm
    have := h2 m hm
    omega

/-- Witness for `choose_multiple_spec`: a 1-item stream with `amount = 2`
returns the stream unchanged, and a 2-item stream with `amount = 1`
returns one item via the overwrite fold. -/
theorem choose_multiple_spec_witness :
    Rand.chooseMultiple 1 0 [(5 : Nat)] 2 = some (0, [5]) ∧
    ((1 : Nat) ≤ 2 ∧ (2 : Nat) < 2 ^ 64) ∧
    (Rand.chooseMultiple 1 0 [(0 : Nat), 1] 1 = some (11562461410679940143, [1]) ∧
      [(1 : Nat)].length = 1 ∧
      ∃ ks : List Nat, ks.length = 2 - 1 ∧
        (∀ m, m < ks.length → ks.getD m 0 ≤ 1 + m) ∧
        [(1 : Nat)] = Rand.applyDraws ([(0 : Nat), 1].take 1) ([(0 : Nat), 1].drop 1) ks) := by
  have h1 := (choose_multiple_spec 1 0 [(5 : Nat)] 2).1 (by decide)
  have hrun : Rand.chooseMultiple 1 0 [(0 : Nat), 1] 1 = some (11562461410679940143, [1]) := by
    decide
  have h2 := (choose_multiple_spec 1 0 [(0 : Nat), 1] 1).2 11562461410679940143 [1]
    (by decide) (by norm_num) hrun
  exact ⟨h1, ⟨by decide, by norm_num⟩, hrun, h2.1, h2.2⟩

/-! ## Claim C8: corpus loading -/

/-- The head of a `dropWhile` run never satisfies the predicate. -/
lemma head_dropWhile_false (p : Char → Bool) :
    ∀ (l : List Char) (c : Char), (l.dropWhile p).head? = some c → p c = false := by
  intro l
  induction l with
  | nil =>
    intro c h
    simp [List.dropWhile] at h
  | cons a t ih =>
    intro c h
    rw [List.dropWhile_cons] at h
    by_cases hp : p a
    · rw [if_pos hp] at h
      exact ih c h
    · rw [if_neg hp] at h
      simp at h
      rw [← h]
      exact Bool.eq_false_iff.mpr hp

/-- A non-empty `dropWhile` run keeps the last element. -/
lemma getLast?_dropWhile (p : Char → Bool) :
    ∀ (l : List Char), l.dropWhile p ≠ [] → (l.dropWhile p).getLast? = l.getLast? := by
  intro l
  induction l with
  | nil =>
    intro h
    simp [List.dropWhile] at h
  | cons a t ih =>
    intro h
    rw [List.dropWhile_cons]
    by_cases hp : p a
    · rw [if_pos hp]
      rw [List.dropWhile_cons, if_pos hp] at h
      have ht : t ≠ [] := by
        intro he
        rw [he] at h
        simp [List.dropWhile] at h
      rw [ih h]
      rcases t with _ | ⟨b, t2⟩
      · exact absurd rfl ht
      · rw [List.getLast?_cons_cons]
    · rw [if_neg hp]

/-- A list whose head fails the predicate is untouched by `dropWhile`. -/
lemma dropWhile_eq_self_of_head (p : Char → Bool) (l : List Char)
    (h : ∀ c, l.head? = some c → p c = false) : l.dropWhile p = l := by
  rcases l with _ | ⟨a, t⟩
  · rfl
  · rw [List.dropWhile_cons, if_neg]
    simp [h a rfl]

/-- `str::trim` is idempotent. -/
lemma trim_idem (s : List Char) : Words.trim (Words.trim s) = Words.trim s := by
  set p := Words.rustIsWhitespace with hp
  set u := s.dropWhile p with hu
  set w := u.reverse.dropWhile p with hw
  have hts : Words.trim s = w.reverse := rfl
  rcases hwe : w with _ | ⟨b, wt⟩
  · rw [hts, hwe]
    rfl
  · have hwne : w ≠ [] := by rw [hwe]; simp
    -- the head of `trim s` is the last of `w`, i.e. the head of `u`
    have hlast : w.getLast? = u.head? := by
      rw [hw, getLast?_dropWhile p u.reverse (by rw [← hw]; exact hwne)]
      exact List.getLast?_reverse u
    have hhead1 : ∀ c, (Words.trim s).head? = some c → p c = false := by
      intro c hc
      rw [hts, List.head?_reverse] at hc
      rw [hlast] at hc
      exact head_dropWhile_false p s c (by rw [← hu]; exact hc)
    have hhead2 : ∀ c, (Words.trim s).reverse.head? = some c → p c = false := by
      intro c hc
      rw [hts, List.reverse_reverse] at hc
      exact head_dropWhile_false p u.reverse c (by rw [← hw]; exact hc)
    show Words.trim w.reverse = w.reverse
    unfold Words.trim
    rw [dropWhile_eq_self_of_head p w.reverse (by rw [← hts]; exact hhead1)]
    rw [List.reverse_reverse]
    rw [dropWhile_eq_self_of_head p w (by
      intro c hc
      apply hhead2
      rw [hts, List.reverse_reverse]
      exact hc)]

/-- C8 counterexample: loading the three lines `"a"`, `" "`, `"a"` yields a
corpus containing the empty string and a duplicate, so `WordSet::load`
does not produce non-empty distinct words for every resource. -/
theorem load_counterexample :
    Words.load [['a'], [' '], ['a']] = [['a'], [], ['a']] ∧
    [] ∈ Words.load [['a'], [' '], ['a']] ∧
    ¬ (Words.load [['a'], [' '], ['a']]).Nodup := by
  refine ⟨by decide, by decide, by decide⟩

/-- C8 (amended): the corpus produced by `WordSet::load` is the resource's
lines in order, each trimmed (and already trimmed again — trimming is
idempotent); empty lines and duplicate words are preserved, not filtered,
so non-emptiness and distinctness hold only if the resource provides
them. -/
theorem load_spec (lines : List (List Char)) :
    (Words.load lines).length = lines.length ∧
    (∀ i, i < lines.length →
      (Words.load lines).getD i [] = Words.trim (lines.getD i [])) ∧
    (∀ w ∈ Words.load lines, Words.trim w = w) := by
  refine ⟨by simp [Words.load], ?_, ?_⟩
  · intro i hi
    unfold Words.load
    rw [List.getD_eq_getElem?_getD, List.getElem?_map]
    rw [List.getElem?_eq_getElem hi]
    simp [List.getD_eq_getElem?_getD, List.getElem?_eq_getElem hi]
  · intro w hw
    unfold Words.load at hw
    obtain ⟨x, _, hx⟩ := List.mem_map.mp hw
    rw [← hx]
    exact trim_idem x

/-! ## Claim C9: punctuation bands -/

/-- Compare a mantissa-scaled draw with a fraction, in integers. -/
lemma le_frac_iff (k a d : Nat) (hd : 0 < d) :
    ((a : ℚ) / (d : ℚ) ≤ (k : ℚ) / 2 ^ 52) ↔ a * 2 ^ 52 ≤ k * d := by
  rw [div_le_div_iff₀ (by exact_mod_cast hd) (by positivity)]
  constructor
  · intro h
    exact_mod_cast h
  · intro h
    exact_mod_cast h

/-- Compare a mantissa-scaled draw with a fraction, in integers. -/
lemma lt_frac_iff (k a d : Nat) (hd : 0 < d) :
    ((k : ℚ) / 2 ^ 52 < (a : ℚ) / (d : ℚ)) ↔ k * d < a * 2 ^ 52 := by
  rw [div_lt_div_iff₀ (by positivity) (by exact_mod_cast hd)]
  constructor
  · intro h
    exact_mod_cast h
  · intro h
    exact_mod_cast h

/-- Compare a mantissa-scaled draw with a fraction, in integers. -/
lemma frac_lt_iff (k a d : Nat) (hd : 0 < d) :
    ((a : ℚ) / (d : ℚ) < (k : ℚ) / 2 ^ 52) ↔ a * 2 ^ 52 < k * d := by
  rw [div_lt_div_iff₀ (by exact_mod_cast hd) (by positivity)]
  constructor
  · intro h
    exact_mod_cast h
  · intro h
    exact_mod_cast h

/-- The draw is under the double literal `0.3` iff
`4 k < 5404319552844595`. -/
lemma lt_c03_iff (k : Nat) : ((k : ℚ) / 2 ^ 52 < Words.c03) ↔
    k * 18014398509481984 < 5404319552844595 * 4503599627370496 := by
  have h := lt_frac_iff k 5404319552844595 18014398509481984 (by norm_num)
  rw [show ((5404319552844595 : ℕ) : ℚ) / ((18014398509481984 : ℕ) : ℚ) = Words.c03 from by
    unfold Words.c03
    push_cast
    norm_num] at h
  exact h

/-- The draw is above the double literal `0.2` iff
`7205759403792794 < 8 k`. -/
lemma c02_lt_iff (k : Nat) : (Words.c02 < (k : ℚ) / 2 ^ 52) ↔
    7205759403792794 * 4503599627370496 < k * 36028797018963968 := by
  have h := frac_lt_iff k 7205759403792794 36028797018963968 (by norm_num)
  rw [show ((7205759403792794 : ℕ) : ℚ) / ((36028797018963968 : ℕ) : ℚ) = Words.c02 from by
    unfold Words.c02
    push_cast
    norm_num] at h
  exact h

/-- The draw is above the double literal `0.1` iff
`7205759403792794 < 16 k`. -/
lemma c01_lt_iff (k : Nat) : (Words.c01 < (k : ℚ) / 2 ^ 52) ↔
    7205759403792794 * 4503599627370496 < k * 72057594037927936 := by
  have h := frac_lt_iff k 7205759403792794 72057594037927936 (by norm_num)
  rw [show ((7205759403792794 : ℕ) : ℚ) / ((72057594037927936 : ℕ) : ℚ) = Words.c01 from by
    unfold Words.c01
    push_cast
    norm_num] at h
  exact h

/-- The draw is above the double literal `0.05` iff
`7205759403792794 < 32 k`. -/
lemma c005_lt_iff (k : Nat) : (Words.c005 < (k : ℚ) / 2 ^ 52) ↔
    7205759403792794 * 4503599627370496 < k * 144115188075855872 := by
  have h := frac_lt_iff k 7205759403792794 144115188075855872 (by norm_num)
  rw [show ((7205759403792794 : ℕ) : ℚ) / ((144115188075855872 : ℕ) : ℚ) = Words.c005 from by
    unfold Words.c005
    push_cast
    norm_num] at h
  exact h

/-- An in-bounds `getD` is a member. -/
lemma getD_mem {α : Type} (l : List α) (n : Nat) (d : α) (h : n < l.length) :
    l.getD n d ∈ l := by
  rw [List.getD_eq_getElem l d h]
  exact List.getElem_mem h

/-- C9: the punctuation pass applies, per word, the probability bands of
the drawn float `r = k/2^52` (every value `rand::f64()` can produce):
`[0.2, 0.3)` appends a terminal mark and sets the flag; `[0.1, 0.2)`
appends a pause mark; `[0.05, 0.1)` wraps the word in a delimiter pair;
`[0, 0.05)` replaces it with a separator token; `r ≥ 0.3` leaves it
unchanged; and a set flag first ASCII-uppercases the word's first
character and is cleared before the band is applied. -/
theorem punctuate_bands (flag : Bool) (word : List Char) (k idx : Nat)
    (hk : k < 2 ^ 52) :
    (((2 : ℚ) / 10 ≤ (k : ℚ) / 2 ^ 52 ∧ (k : ℚ) / 2 ^ 52 < (3 : ℚ) / 10) → idx < 3 →
      Words.punctuateStep flag word ((k : ℚ) / 2 ^ 52) idx =
        ((if flag then Words.upperFirstByte word else word) ++ [Words.TERMINAL.getD idx default], true) ∧
      Words.TERMINAL.getD idx default ∈ Words.TERMINAL) ∧
    (((1 : ℚ) / 10 ≤ (k : ℚ) / 2 ^ 52 ∧ (k : ℚ) / 2 ^ 52 < (2 : ℚ) / 10) → idx < 3 →
      Words.punctuateStep flag word ((k : ℚ) / 2 ^ 52) idx =
        ((if flag then Words.upperFirstByte word else word) ++ [Words.PAUSE.getD idx default], false) ∧
      Words.PAUSE.getD idx default ∈ Words.PAUSE) ∧
    (((1 : ℚ) / 20 ≤ (k : ℚ) / 2 ^ 52 ∧ (k : ℚ) / 2 ^ 52 < (1 : ℚ) / 10) → idx < 6 →
      Words.punctuateStep flag word ((k : ℚ) / 2 ^ 52) idx =
        ((Words.DELIM.getD idx default).1 ::
          ((if flag then Words.upperFirstByte word else word) ++ [(Words.DELIM.getD idx default).2]), false) ∧
      Words.DELIM.getD idx default ∈ Words.DELIM) ∧
    (((k : ℚ) / 2 ^ 52 < (1 : ℚ) / 20) → idx < 3 →
      Words.punctuateStep flag word ((k : ℚ) / 2 ^ 52) idx =
        (Words.SEP.getD idx default, false) ∧
      Words.SEP.getD idx default ∈ Words.SEP) ∧
    (((3 : ℚ) / 10 ≤ (k : ℚ) / 2 ^ 52) →
      Words.punctuateStep flag word ((k : ℚ) / 2 ^ 52) idx =
        ((if flag then Words.upperFirstByte word else word), false)) ∧
    (∀ (c : Char) (rest : List Char),
      Words.upperFirstByte (c :: rest) = Words.asciiUpper c :: rest) := by
  refine ⟨?_, ?_, ?_, ?_, ?_, ?_⟩
  · intro hband hidx
    have hb1 : ((2 : ℕ) : ℚ) / ((10 : ℕ) : ℚ) ≤ (k : ℚ) / 2 ^ 52 := by
      push_cast
      exact hband.1
    have hb2 : (k : ℚ) / 2 ^ 52 < ((3 : ℕ) : ℚ) / ((10 : ℕ) : ℚ) := by
      push_cast
      exact hband.2
    have hn1 := (le_frac_iff k 2 10 (by norm_num)).mp hb1
    have hn2 := (lt_frac_iff k 3 10 (by norm_num)).mp hb2
    have hc1 : (k : ℚ) / 2 ^ 52 < Words.c03 := (lt_c03_iff k).mpr (by omega)
    have hc2 : (k : ℚ) / 2 ^ 52 > Words.c02 := (c02_lt_iff k).mpr (by omega)
    refine ⟨?_, getD_mem _ _ _ (by simpa using hidx)⟩
    simp only [Words.punctuateStep]
    rw [if_pos hc1, if_pos hc2]
  · intro hband hidx
    have hb1 : ((1 : ℕ) : ℚ) / ((10 : ℕ) : ℚ) ≤ (k : ℚ) / 2 ^ 52 := by
      push_cast
      exact hband.1
    have hb2 : (k : ℚ) / 2 ^ 52 < ((2 : ℕ) : ℚ) / ((10 : ℕ) : ℚ) := by
      push_cast
      exact hband.2
    have hn1 := (le_frac_iff k 1 10 (by norm_num)).mp hb1
    have hn2 := (lt_frac_iff k 2 10 (by norm_num)).mp hb2
    have hc1 : (k : ℚ) / 2 ^ 52 < Words.c03 := (lt_c03_iff k).mpr (by omega)
    have hc2 : ¬ ((k : ℚ) / 2 ^ 52 > Words.c02) := fun hcon => by
      have := (c02_lt_iff k).mp hcon
      omega
    have hc3 : (k : ℚ) / 2 ^ 52 > Words.c01 := (c01_lt_iff k).mpr (by omega)
    refine ⟨?_, getD_mem _ _ _ (by simpa using hidx)⟩
    simp only [Words.punctuateStep]
    rw [if_pos hc1, if_neg hc2, if_pos hc3]
  · intro hband hidx
    have hb1 : ((1 : ℕ) : ℚ) / ((20 : ℕ) : ℚ) ≤ (k : ℚ) / 2 ^ 52 := by
      push_cast
      exact hband.1
    have hb2 : (k : ℚ) / 2 ^ 52 < ((1 : ℕ) : ℚ) / ((10 : ℕ) : ℚ) := by
      push_cast
      exact hband.2
    have hn1 := (le_frac_iff k 1 20 (by norm_num)).mp hb1
    have hn2 := (lt_frac_iff k 1 10 (by norm_num)).mp hb2
    have hc1 : (k : ℚ) / 2 ^ 52 < Words.c03 := (lt_c03_iff k).mpr (by omega)
    have hc2 : ¬ ((k : ℚ) / 2 ^ 52 > Words.c02) := fun hcon => by
      have := (c02_lt_iff k).mp hcon
      omega
    have hc3 : ¬ ((k : ℚ) / 2 ^ 52 > Words.c01) := fun hcon => by
      have := (c01_lt_iff k).mp hcon
      omega
    have hc4 : (k : ℚ) / 2 ^ 52 > Words.c005 := (c005_lt_iff k).mpr (by omega)
    refine ⟨?_, getD_mem _ _ _ (by simpa using hidx)⟩
    simp only [Words.punctuateStep]
    rw [if_pos hc1, if_neg hc2, if_neg hc3, if_pos hc4]
  · intro hband hidx
    have hb2 : (k : ℚ) / 2 ^ 52 < ((1 : ℕ) : ℚ) / ((20 : ℕ) : ℚ) := by
      push_cast
      exact hband
    have hn2 := (lt_frac_iff k 1 20 (by norm_num)).mp hb2
    have hc1 : (k : ℚ) / 2 ^ 52 < Words.c03 := (lt_c03_iff k).mpr (by omega)
    have hc2 : ¬ ((k : ℚ) / 2 ^ 52 > Words.c02) := fun hcon => by
      have := (c02_lt_iff k).mp hcon
      omega
    have hc3 : ¬ ((k : ℚ) / 2 ^ 52 > Words.c01) := fun hcon => by
      have := (c01_lt_iff k).mp hcon
      omega
    have hc4 : ¬ ((k : ℚ) / 2 ^ 52 > Words.c005) := fun hcon => by
      have := (c005_lt_iff k).mp hcon
      omega
    refine ⟨?_, getD_mem _ _ _ (by simpa using hidx)⟩
    simp only [Words.punctuateStep]
    rw [if_pos hc1, if_neg hc2, if_neg hc3, if_neg hc4]
  · intro hband
    have hb1 : ((3 : ℕ) : ℚ) / ((10 : ℕ) : ℚ) ≤ (k : ℚ) / 2 ^ 52 := by
      push_cast
      exact hband
    have hn1 := (le_frac_iff k 3 10 (by norm_num)).mp hb1
    have hc1 : ¬ ((k : ℚ) / 2 ^ 52 < Words.c03) := fun hcon => by
      have := (lt_c03_iff k).mp hcon
      omega
    simp only [Words.punctuateStep]
    rw [if_neg hc1]
  · intro c rest
    show (if c.toNat < 128 then Words.asciiUpper c :: rest else c :: rest) =
      Words.asciiUpper c :: rest
    by_cases h : c.toNat < 128
    · rw [if_pos h]
    · rw [if_neg h]
      unfold Words.asciiUpper
      rw [if_neg (by omega)]

/-- Witness for `punctuate_bands`: `k = 10^15` lies in the terminal band
(`r ≈ 0.222`), instantiated with flag set on word `"cat"` and index 1. -/
theorem punctuate_bands_witness :
    (((2 : ℚ) / 10 ≤ ((1000000000000000 : ℕ) : ℚ) / 2 ^ 52 ∧
        ((1000000000000000 : ℕ) : ℚ) / 2 ^ 52 < (3 : ℚ) / 10) → 1 < 3 →
      Words.punctuateStep true ['c', 'a', 't'] (((1000000000000000 : ℕ) : ℚ) / 2 ^ 52) 1 =
        ((if true then Words.upperFirstByte ['c', 'a', 't'] else ['c', 'a', 't']) ++ [Words.TERMINAL.getD 1 default], true) ∧
      Words.TERMINAL.getD 1 default ∈ Words.TERMINAL) ∧
    (((3 : ℚ) / 10 ≤ ((1000000000000000 : ℕ) : ℚ) / 2 ^ 52) →
      Words.punctuateStep true ['c', 'a', 't'] (((1000000000000000 : ℕ) : ℚ) / 2 ^ 52) 1 =
        ((if true then Words.upperFirstByte ['c', 'a', 't'] else ['c', 'a', 't']), false)) := by
  have h := punctuate_bands true ['c', 'a', 't'] 1000000000000000 1 (by norm_num)
  exact ⟨h.1, h.2.2.2.2.1⟩
